import Mathlib

/-!
# Verification of the code-researcher core

Shallow embedding of the repository's core logic and proofs of the spec's
claims about it:

* `src/src/vcs/github_handler.py` — repository relevance scoring and ranking
  (`_extract_words_from_text`, `_calculate_relevance_score`,
  `identify_relevant_repositories`);
* `src/src/alerts/cloudwatch_handler.py` — alert parsing and validation
  (`CloudWatchAlert.from_sns_message`, `validate_alert`);
* `src/src/core/code_researcher_system.py` — the research-job lifecycle
  (`_process_research_job`), modelled as a trace of observable snapshots.

Python floats are modelled as exact rationals (`ℚ`); the score arithmetic of
the source only involves small decimal constants and divisions by list sizes,
and every claim under study is about the formula level of that arithmetic.
-/

namespace CodeResearcher

/-! ## Text tokenization (`GitHubHandler._extract_words_from_text`)

The source lower-cases the text, takes the maximal `\w+` runs (`\w` being
alphanumerics plus underscore), and drops stop words and words of length ≤ 2.
-/

/-- Stop words removed by `_extract_words_from_text`. -/
def stopWords : List String :=
  ["the", "and", "or", "but", "in", "on", "at", "to", "for", "of", "with",
   "by", "is", "are", "was", "were"]

/-- A regex word character (`\w`): alphanumeric or underscore. -/
def isWordChar (c : Char) : Bool := c.isAlphanum || c = '_'

/-- Maximal runs of characters satisfying `p`; `acc` is the reversed current
run. This is the token stream of `re.findall` over runs of `p`-characters. -/
def runsAux (p : Char → Bool) : List Char → List Char → List (List Char)
  | acc, [] => if acc.isEmpty then [] else [acc.reverse]
  | acc, c :: cs =>
    if p c then runsAux p (c :: acc) cs
    else if acc.isEmpty then runsAux p [] cs
    else acc.reverse :: runsAux p [] cs

/-- `_extract_words_from_text`: lower-case, split into `\w+` runs, drop stop
words and tokens of length ≤ 2. -/
def extractWordsFromText (text : String) : List String :=
  ((runsAux isWordChar [] (text.toList.map Char.toLower)).map
      (fun cs => String.mk cs)).filter
    (fun w => !(stopWords.contains w) && decide (2 < w.length))

/-! ## Repository configuration (`RepositoryConfig`) -/

/-- `RepositoryConfig` dataclass of `github_handler.py`. -/
structure RepositoryConfig where
  owner : String
  name : String
  access_token : String := ""
  branch : String := "main"
  file_patterns : List String := ["**/*.py", "**/*.js", "**/*.java", "**/*.go"]
  alert_keywords : List String := []
  priority : String := "medium"
deriving DecidableEq, Repr

/-- Lower-casing of a Python string (`str.lower`), ASCII letters. -/
def lowerString (s : String) : String := String.mk (s.toList.map Char.toLower)

/-- The `priority_boost` dictionary lookup `{high: 0.2, medium: 0.1, low: 0.0}`
with default `0.0` (`dict.get(priority, 0.0)`). -/
def priorityBoost (p : String) : ℚ :=
  if p = "high" then 2/10 else if p = "medium" then 1/10 else 0

/-- `GitHubHandler._calculate_relevance_score`, translated line by line from
the source.  Python sets are modelled as `Finset String`. -/
def calcRelevanceScore (alertKeywords : List String)
    (repo : RepositoryConfig) : ℚ :=
  if alertKeywords = [] then 0
  else
    let alertSet := alertKeywords.toFinset
    let base : ℚ :=
      if repo.alert_keywords ≠ [] then
        let repoSet := (repo.alert_keywords.map lowerString).toFinset
        let overlap := alertSet ∩ repoSet
        if overlap ≠ ∅ then (overlap.card : ℚ) / (alertSet.card : ℚ) * (8/10)
        else 0
      else 3/10
    let withPriority := base + priorityBoost repo.priority
    let nameOverlap := alertSet ∩ (extractWordsFromText repo.name).toFinset
    let total :=
      if nameOverlap ≠ ∅ then
        withPriority +
          (nameOverlap.card : ℚ) / (alertKeywords.length : ℚ) * (3/10)
      else withPriority
    min total 1

/-! ## Ranking (`identify_relevant_repositories`)

The source filters repositories whose score exceeds `0.1`, sorts the survivors
by score descending with Python's stable `list.sort(key=..., reverse=True)`,
and keeps the first three.  The stable descending sort is
`List.insertionSort` with the relation `b.2 ≤ a.2`: an element is inserted
after every strictly greater score and before every equal or smaller one,
which keeps equal scores in input order. -/

/-- The filtered `(repo, score)` list built by the loop of
`identify_relevant_repositories` (threshold `score > 0.1`). -/
def relevantRepos (alertKeywords : List String)
    (repoConfigs : List RepositoryConfig) : List (RepositoryConfig × ℚ) :=
  repoConfigs.filterMap (fun rc =>
    let s := calcRelevanceScore alertKeywords rc
    if 1/10 < s then some (rc, s) else none)

/-- Python's stable sort by score, descending. -/
def sortByScoreDesc (l : List (RepositoryConfig × ℚ)) :
    List (RepositoryConfig × ℚ) :=
  List.insertionSort (fun a b => b.2 ≤ a.2) l

/-- `identify_relevant_repositories`, with the alert-keyword extraction
already applied (the claims quantify over the extracted keyword set). -/
def identifyRelevantRepositories (alertKeywords : List String)
    (repoConfigs : List RepositoryConfig) : List (RepositoryConfig × ℚ) :=
  (sortByScoreDesc (relevantRepos alertKeywords repoConfigs)).take 3

/-! ## The spec's §4.1 score formula

`specTokenizeText` renders the spec's own description of alert-text
tokenization ("splitting on non-alphanumeric separators (including `-`, `_`,
`/`), lower-case, drop tokens of length ≤ 2"); it is *not* a translation of
the source, but the comparison point demanded by claim C1, which asserts that
the name-overlap term tokenizes `repo.name` "the same way as alert text".
Note the two real differences from `extractWordsFromText`: underscore is a
separator here but a word character there, and there is no stop-word filter
here. -/

/-- Spec §4.1 tokenization of alert text: maximal alphanumeric runs of the
lower-cased text, tokens of length ≤ 2 dropped. -/
def specTokenizeText (text : String) : List String :=
  ((runsAux (fun c => c.isAlphanum) [] (text.toList.map Char.toLower)).map
      (fun cs => String.mk cs)).filter (fun w => decide (2 < w.length))

/-- The §4.1 score formula exactly as claim C1 states it, with the
name-overlap term computed from the spec's alert-text tokenization of
`repo.name`. -/
def specScoreClaimed (alertKeywords : Finset String)
    (repo : RepositoryConfig) : ℚ :=
  if alertKeywords = ∅ then 0
  else
    let kwTerm : ℚ :=
      if repo.alert_keywords ≠ [] then
        ((alertKeywords ∩ repo.alert_keywords.toFinset).card : ℚ) /
          (alertKeywords.card : ℚ) * (8/10)
      else 3/10
    let prTerm : ℚ :=
      if repo.priority = "high" then 2/10
      else if repo.priority = "medium" then 1/10 else 0
    let nameTerm : ℚ :=
      ((alertKeywords ∩ (specTokenizeText repo.name).toFinset).card : ℚ) /
        (alertKeywords.card : ℚ) * (3/10)
    min (kwTerm + prTerm + nameTerm) 1

/-- The §4.1 score formula amended so that the name-overlap term uses the
tokenizer the scorer actually applies to `repo.name`
(`_extract_words_from_text`). -/
def specScoreAmended (alertKeywords : Finset String)
    (repo : RepositoryConfig) : ℚ :=
  if alertKeywords = ∅ then 0
  else
    let kwTerm : ℚ :=
      if repo.alert_keywords ≠ [] then
        ((alertKeywords ∩ repo.alert_keywords.toFinset).card : ℚ) /
          (alertKeywords.card : ℚ) * (8/10)
      else 3/10
    let prTerm : ℚ :=
      if repo.priority = "high" then 2/10
      else if repo.priority = "medium" then 1/10 else 0
    let nameTerm : ℚ :=
      ((alertKeywords ∩ (extractWordsFromText repo.name).toFinset).card : ℚ) /
        (alertKeywords.card : ℚ) * (3/10)
    min (kwTerm + prTerm + nameTerm) 1

/-! ## CloudWatch alerts (`cloudwatch_handler.py`)

The `CloudWatchAlert` dataclass and `CloudWatchAlertHandler.validate_alert`.
Python's substring test `pattern in name` is modelled with `List.isInfixOf`
over the character lists. -/

/-- The `CloudWatchAlert` dataclass: nine string fields parsed from the
alarm payload. -/
structure CloudWatchAlert where
  alarm_name : String
  alarm_description : String
  metric_name : String
  «namespace» : String
  timestamp : String
  state : String
  reason : String
  region : String
  account_id : String
deriving DecidableEq, Repr

/-- `CloudWatchAlertHandler.validate_alert`: only `ALARM`-state alerts pass,
and none whose lower-cased alarm name contains a configured ignore pattern.
`ignorePatterns` is `config.get('ignore_patterns', [])`. -/
def validateAlert (ignorePatterns : List String)
    (alert : CloudWatchAlert) : Bool :=
  if alert.state ≠ "ALARM" then false
  else if ignorePatterns.any
      (fun pat => decide (pat.toList <:+: (lowerString alert.alarm_name).toList))
    then false
  else true

/-! ## Research-job lifecycle (`_process_research_job`)

The job processor is an asyncio coroutine.  Within one coroutine chunk
(between two awaits) no other task of the single-threaded event loop runs, so
callers polling `get_job_status` can observe the job's fields only while the
coroutine is suspended at an `await`, before its first chunk runs, or after
it finishes.  The model therefore produces the *observable trace*: the
`pending` snapshot between job creation (`process_alert`) and the task's
first chunk, one snapshot per `await` reached (the state entering the
suspension), and the final state.  `_process_research_job` has exactly two
awaits: the orchestrator call (`analyze_crash`, line 149) and the
change-request creation (`_create_pull_request_for_fixes`, line 166); the
clone and the ranking are synchronous. -/

/-- The `ResearchJob.status` values listed in `code_researcher_system.py`. -/
inductive Status where
  | pending
  | analyzing
  | generating_fixes
  | creating_prs
  | completed
  | failed
deriving DecidableEq, Repr

/-- The part of the orchestrator result the job processor inspects:
`analysis_complete`, and the fix proposals that
`_extract_fixes_from_orchestrator_response` extracts from its messages. -/
structure OrchResult where
  analysisComplete : Bool
  fixes : List String
deriving DecidableEq, Repr

deriving instance DecidableEq for Except

/-- Outcome of the externally-dependent steps for one candidate repository:
the clone may raise, the orchestrator call may raise, or the orchestrator
returns a result — in which case the change-request creation (attempted only
when `analysis_complete` holds and some fix was extracted) either returns a
URL or raises. -/
inductive CandOutcome where
  | cloneErr (msg : String)
  | orchErr (msg : String)
  | orchOk (result : OrchResult) (prResult : Except String String)
deriving DecidableEq, Repr

/-- A ranked candidate: relevance score and the environment's outcome for
its processing. -/
structure Candidate where
  score : ℚ
  outcome : CandOutcome
deriving DecidableEq, Repr

/-- The mutable fields of `ResearchJob` that `_process_research_job`
touches.  `completedAt` is an abstract timestamp (set or unset);
`pullRequests` mirrors the `Optional[List[str]]` field, `none` being
Python's `None`. -/
structure JobState where
  status : Status
  orchestratorResponse : Option OrchResult
  pullRequests : Option (List String)
  errorMessage : Option String
  completedAt : Option Unit
deriving DecidableEq, Repr

/-- A freshly created job (`process_alert`): `pending`, nothing else set. -/
def initialJob : JobState :=
  { status := .pending, orchestratorResponse := none, pullRequests := none,
    errorMessage := none, completedAt := none }

/-- The job right after line 116 (`job.status = 'analyzing'`). -/
def analyzingState : JobState := { initialJob with status := .analyzing }

/-- Fixed error message of the unconfigured-handler path (line 120). -/
def noHandlerMsg : String := "GitHub handler not configured"

/-- Fixed error message of the no-candidates path (line 130). -/
def noReposMsg : String := "No relevant repositories found"

/-- Default error message of the final failed disposition (line 190). -/
def noPrsMsg : String := "No pull requests created"

/-- Python truthiness of `job.error_message` in `if not job.error_message`:
falsy iff `None` or the empty string. -/
def optStrFalsy : Option String → Bool
  | none => true
  | some s => s.isEmpty

/-- One iteration of the candidate loop (lines 141–181): clone, await
`analyze_crash`, store the response, set `creating_prs` when the analysis is
complete, await the change-request creation when fixes were extracted, and
catch any exception into `error_message` without aborting the loop.  Returns
the state after the iteration and the snapshots observable during it (one
per await reached, taken at suspension). -/
def processCandidate (s : JobState) (c : CandOutcome) :
    JobState × List JobState :=
  match c with
  | .cloneErr m => ({ s with errorMessage := some m }, [])
  | .orchErr m => ({ s with errorMessage := some m }, [s])
  | .orchOk result pr =>
    let s1 := { s with orchestratorResponse := some result }
    if result.analysisComplete then
      let s2 := { s1 with status := .creating_prs }
      if result.fixes ≠ [] then
        match pr with
        | .ok url =>
          ({ s2 with
              pullRequests := some (s2.pullRequests.getD [] ++ [url]) },
            [s, s2])
        | .error m => ({ s2 with errorMessage := some m }, [s, s2])
      else (s2, [s])
    else (s1, [s])

/-- The candidate loop: sequential, later candidates see the state left by
earlier ones.  Also returns the candidates actually visited, in order. -/
def processCandidates (s : JobState) :
    List CandOutcome → JobState × List JobState × List CandOutcome
  | [] => (s, [], [])
  | c :: cs =>
    match processCandidate s c with
    | (s1, snaps1) =>
      match processCandidates s1 cs with
      | (s2, snaps2, vis) => (s2, snaps1 ++ snaps2, c :: vis)

/-- Environment of one `_process_research_job` run: whether the GitHub
handler was configured, and the ranked candidate list returned by
`identify_relevant_repositories` together with each candidate's external
outcome. -/
structure JobConfig where
  githubConfigured : Bool
  candidates : List Candidate
deriving DecidableEq, Repr

/-- The candidate loop of a run: the source iterates over
`relevant_repos[:2]`. -/
def loopRun (cfg : JobConfig) : JobState × List JobState × List CandOutcome :=
  processCandidates analyzingState ((cfg.candidates.take 2).map (·.outcome))

/-- The job state when the candidate loop has finished (line 183). -/
def loopState (cfg : JobConfig) : JobState := (loopRun cfg).1

/-- Final disposition of a job after the candidate loop (lines 183–193):
`completed` iff some pull request was recorded (Python truthiness of
`job.pull_requests`), else `failed` with the error message defaulted when
none was recorded; then `completed_at` is stamped. -/
def finalDisposition (s2 : JobState) : JobState :=
  let s3 :=
    if s2.pullRequests.getD [] ≠ [] then { s2 with status := .completed }
    else { s2 with
            status := .failed,
            errorMessage :=
              if optStrFalsy s2.errorMessage then some noPrsMsg
              else s2.errorMessage }
  { s3 with completedAt := some () }

/-- Result of one `_process_research_job` run: final job state, observable
trace, visited candidates, and the number of writes to `completed_at`. -/
structure RunResult where
  final : JobState
  trace : List JobState
  visited : List CandOutcome
  completedAtWrites : Nat
deriving DecidableEq, Repr

/-- `_process_research_job`, chunked at its awaits.  The unconfigured-handler
and empty-ranking paths set `analyzing` and immediately overwrite it with
`failed` inside one chunk and return (lines 116–131), so their traces contain
only the `pending` and final snapshots.  Otherwise the candidate loop runs,
and the final disposition (lines 183–193) sets `completed` iff some pull
request was recorded, defaults the error message when none was recorded, and
stamps `completed_at`. -/
def runJob (cfg : JobConfig) : RunResult :=
  if cfg.githubConfigured = false then
    let sF := { analyzingState with
                status := .failed, errorMessage := some noHandlerMsg }
    { final := sF, trace := [initialJob, sF], visited := [],
      completedAtWrites := 0 }
  else if cfg.candidates = [] then
    let sF := { analyzingState with
                status := .failed, errorMessage := some noReposMsg }
    { final := sF, trace := [initialJob, sF], visited := [],
      completedAtWrites := 0 }
  else
    { final := finalDisposition (loopState cfg),
      trace := initialJob :: (loopRun cfg).2.1
        ++ [finalDisposition (loopState cfg)],
      visited := (loopRun cfg).2.2, completedAtWrites := 1 }

/-- The amended observable status diagram: `pending → {analyzing, failed}`,
`analyzing → {creating_prs, failed}`, `creating_prs → {completed, failed}`. -/
def diagramEdge : Status → Status → Prop := fun x y =>
  (x = .pending ∧ (y = .analyzing ∨ y = .failed))
  ∨ (x = .analyzing ∧ (y = .creating_prs ∨ y = .failed))
  ∨ (x = .creating_prs ∧ (y = .completed ∨ y = .failed))

/-- The status word of every observable trace: `pending`, a block of
`analyzing`, a block of `creating_prs`, and one terminal status. -/
def statusWord (a b : Nat) (t : Status) : List Status :=
  Status.pending ::
    (List.replicate a .analyzing ++ (List.replicate b .creating_prs ++ [t]))

/-- Closed form of the statuses of a `statusWord` by position. -/
def statusAt (a b : Nat) (t : Status) (i : Nat) : Status :=
  if i = 0 then .pending
  else if i ≤ a then .analyzing
  else if i ≤ a + b then .creating_prs
  else t

/-! ## Lemmas about the candidate loop -/

/-- Unfolding of one loop iteration. -/
theorem processCandidates_cons (s : JobState) (c : CandOutcome)
    (cs : List CandOutcome) :
    processCandidates s (c :: cs)
      = ((processCandidates (processCandidate s c).1 cs).1,
         (processCandidate s c).2
           ++ (processCandidates (processCandidate s c).1 cs).2.1,
         c :: (processCandidates (processCandidate s c).1 cs).2.2) := rfl

/-- One iteration leaves one of three shapes: no snapshot (clone failure,
state otherwise only gaining an error message), one snapshot (the
pre-iteration state, observed during the orchestrator await), or two
snapshots (additionally the `creating_prs` state observed during the
change-request await). -/
theorem processCandidate_cases (s : JobState) (c : CandOutcome) :
    ((processCandidate s c).2 = []
      ∧ (processCandidate s c).1.status = s.status
      ∧ (processCandidate s c).1.pullRequests = s.pullRequests)
    ∨ ((processCandidate s c).2.map (·.status) = [s.status]
      ∧ ((processCandidate s c).1.status = s.status
          ∨ (processCandidate s c).1.status = .creating_prs)
      ∧ (processCandidate s c).1.pullRequests = s.pullRequests)
    ∨ ((processCandidate s c).2.map (·.status) = [s.status, .creating_prs]
      ∧ (processCandidate s c).1.status = .creating_prs) := by
  cases c with
  | cloneErr m => left; simp [processCandidate]
  | orchErr m => right; left; simp [processCandidate]
  | orchOk result pr =>
    by_cases hA : result.analysisComplete
    · by_cases hF : result.fixes = []
      · right; left; simp [processCandidate, hA, hF]
      · cases pr with
        | ok url => right; right; simp [processCandidate, hA, hF]
        | error m => right; right; simp [processCandidate, hA, hF]
    · right; left; simp [processCandidate, hA]

/-- `completed_at` is never written inside the candidate loop: the final
state and every snapshot keep the incoming value. -/
theorem processCandidate_completedAt (s : JobState) (c : CandOutcome) :
    (processCandidate s c).1.completedAt = s.completedAt
    ∧ ∀ x ∈ (processCandidate s c).2, x.completedAt = s.completedAt := by
  cases c with
  | cloneErr m => simp [processCandidate]
  | orchErr m => simp [processCandidate]
  | orchOk result pr =>
    by_cases hA : result.analysisComplete
    · by_cases hF : result.fixes = []
      · simp [processCandidate, hA, hF]
      · cases pr with
        | ok url => simp [processCandidate, hA, hF]
        | error m => simp [processCandidate, hA, hF]
    · simp [processCandidate, hA]

/-- `completed_at` preservation for the whole loop. -/
theorem processCandidates_completedAt (cs : List CandOutcome) :
    ∀ s : JobState,
      (processCandidates s cs).1.completedAt = s.completedAt
      ∧ ∀ x ∈ (processCandidates s cs).2.1, x.completedAt = s.completedAt := by
  induction cs with
  | nil => intro s; simp [processCandidates]
  | cons c cs ih =>
    intro s
    obtain ⟨h1, h2⟩ := processCandidate_completedAt s c
    obtain ⟨h3, h4⟩ := ih (processCandidate s c).1
    rw [processCandidates_cons]
    refine ⟨h3.trans h1, ?_⟩
    intro x hx
    rcases List.mem_append.mp hx with hx | hx
    · exact h2 x hx
    · exact (h4 x hx).trans h1

/-- The loop visits exactly the candidates it is given, in order. -/
theorem processCandidates_visited (cs : List CandOutcome) :
    ∀ s : JobState, (processCandidates s cs).2.2 = cs := by
  induction cs with
  | nil => intro s; rfl
  | cons c cs ih =>
    intro s
    rw [processCandidates_cons, ih]

/-- Status word of the snapshots emitted by the candidate loop: starting
from a state whose status is `analyzing` or `creating_prs`, the snapshot
statuses form a block of `analyzing` followed by a block of `creating_prs`,
with the block boundaries tied to the entry and exit states as stated. -/
theorem processCandidates_word (cs : List CandOutcome) :
    ∀ s : JobState,
      s.status = .analyzing ∨ s.status = .creating_prs →
      ∃ a b,
        (processCandidates s cs).2.1.map (·.status)
            = List.replicate a Status.analyzing
              ++ List.replicate b Status.creating_prs
        ∧ (1 ≤ a → s.status = .analyzing)
        ∧ (s.status = .creating_prs → a = 0)
        ∧ (a = 0 → 1 ≤ b → s.status = .creating_prs)
        ∧ ((processCandidates s cs).1.status = .analyzing
            ∨ (processCandidates s cs).1.status = .creating_prs)
        ∧ (1 ≤ b → (processCandidates s cs).1.status = .creating_prs)
        ∧ (s.status = .creating_prs →
            (processCandidates s cs).1.status = .creating_prs)
        ∧ (b = 0 → (processCandidates s cs).1.pullRequests = s.pullRequests) := by
  induction cs with
  | nil =>
    intro s hs
    exact ⟨0, 0, by simp [processCandidates], by omega,
      fun _ => rfl, by omega, hs, by omega, fun h => h, fun _ => rfl⟩
  | cons c cs ih =>
    intro s hs
    have hs1 : (processCandidate s c).1.status = .analyzing
        ∨ (processCandidate s c).1.status = .creating_prs := by
      rcases processCandidate_cases s c with ⟨_, h, _⟩ | ⟨_, h, _⟩ | ⟨_, h⟩
      · rw [h]; exact hs
      · rcases h with h | h
        · rw [h]; exact hs
        · right; exact h
      · right; exact h
    obtain ⟨a2, b2, hw2, ha2, hcpa2, hab2, hfin2, hb2, hcp2, hprs2⟩ :=
      ih (processCandidate s c).1 hs1
    rw [processCandidates_cons]
    simp only [List.map_append]
    rcases processCandidate_cases s c with ⟨h0, hst, hpr⟩ | ⟨h0, hst, hpr⟩ |
        ⟨h0, hst⟩
    · -- no snapshot from this iteration
      refine ⟨a2, b2, ?_, ?_, ?_, ?_, hfin2, hb2, ?_, ?_⟩
      · rw [h0]; simpa using hw2
      · intro ha; rw [← hst]; exact ha2 ha
      · intro h; exact hcpa2 (hst.trans h)
      · intro h1 h2; rw [← hst]; exact hab2 h1 h2
      · intro h; exact hcp2 (hst.trans h)
      · intro h; rw [hprs2 h, hpr]
    · -- one snapshot: the entry state
      rcases hs with hsa | hsc
      · -- entering with status analyzing: word is analyzing :: word2
        refine ⟨a2 + 1, b2, ?_, fun _ => hsa, ?_, by omega, hfin2, hb2, ?_, ?_⟩
        · rw [h0, hw2, hsa, List.replicate_succ]
          simp
        · intro h; rw [hsa] at h; cases h
        · intro h; rw [hsa] at h; cases h
        · intro h; rw [hprs2 h, hpr]
      · -- entering with status creating_prs: everything after is creating_prs
        have hst1 : (processCandidate s c).1.status = .creating_prs := by
          rcases hst with h | h
          · rw [h]; exact hsc
          · exact h
        have ha2z : a2 = 0 := hcpa2 hst1
        refine ⟨0, b2 + 1, ?_, by omega, fun _ => rfl, fun _ _ => hsc,
          hfin2, fun _ => hcp2 hst1, fun _ => hcp2 hst1, by omega⟩
        rw [h0, hw2, ha2z, hsc, List.replicate_succ]
        simp
    · -- two snapshots: entry state then creating_prs
      have ha2z : a2 = 0 := hcpa2 hst
      rcases hs with hsa | hsc
      · refine ⟨1, b2 + 1, ?_, fun _ => hsa, ?_, by omega,
          hfin2, fun _ => hcp2 hst, ?_, by omega⟩
        · rw [h0, hw2, ha2z, hsa, List.replicate_succ]
          simp [List.replicate_succ]
        · intro h; rw [hsa] at h; cases h
        · intro h; rw [hsa] at h; cases h
      · refine ⟨0, b2 + 2, ?_, by omega, fun _ => rfl, fun _ _ => hsc,
          hfin2, fun _ => hcp2 hst, fun _ => hcp2 hst, by omega⟩
        rw [h0, hw2, ha2z, hsc, List.replicate_succ]
        simp [List.replicate_succ]

/-- Facts about the final disposition (lines 183–193): the terminal status
is `completed` iff a pull request was recorded, `pull_requests` is not
touched, `completed_at` is stamped, and the error message is kept except for
the default on an otherwise message-less failure. -/
theorem finalDisposition_facts (s : JobState) :
    ((finalDisposition s).status = .completed
      ∨ (finalDisposition s).status = .failed)
    ∧ ((finalDisposition s).status = .completed ↔ s.pullRequests.getD [] ≠ [])
    ∧ (finalDisposition s).pullRequests = s.pullRequests
    ∧ (finalDisposition s).completedAt = some ()
    ∧ ((finalDisposition s).status = .failed →
        (finalDisposition s).errorMessage
          = if optStrFalsy s.errorMessage then some noPrsMsg
            else s.errorMessage)
    ∧ ((finalDisposition s).status = .completed →
        (finalDisposition s).errorMessage = s.errorMessage) := by
  by_cases h : s.pullRequests.getD [] ≠ [] <;>
    simp [finalDisposition, h]

/-- **Master lemma**: the observable status trace of every run is a
`statusWord` — `pending`, then a block of `analyzing`, then a block of
`creating_prs`, then one terminal status; `completed` requires an observed
`creating_prs`, and an observed `creating_prs` requires an observed
`analyzing`. -/
theorem runJob_status_word (cfg : JobConfig) :
    ∃ a b t, (runJob cfg).trace.map (·.status) = statusWord a b t
      ∧ (t = .completed ∨ t = .failed)
      ∧ (t = .completed → 1 ≤ b)
      ∧ (1 ≤ b → 1 ≤ a) := by
  by_cases hg : cfg.githubConfigured = false
  · refine ⟨0, 0, .failed, ?_, Or.inr rfl, by simp, by omega⟩
    simp [runJob, hg, statusWord, initialJob, analyzingState]
  · by_cases hc : cfg.candidates = []
    · refine ⟨0, 0, .failed, ?_, Or.inr rfl, by simp, by omega⟩
      simp [runJob, hg, hc, statusWord, initialJob, analyzingState]
    · obtain ⟨a, b, hw, ha, hcpa, hab, hfin, hb, hcp, hprs⟩ :=
        processCandidates_word ((cfg.candidates.take 2).map (·.outcome))
          analyzingState (Or.inl rfl)
      have hw2 : (loopRun cfg).2.1.map (·.status)
          = List.replicate a Status.analyzing
            ++ List.replicate b Status.creating_prs := hw
      have hprs2 : b = 0 → (loopState cfg).pullRequests = none :=
        fun h => hprs h
      have hab2 : a = 0 → 1 ≤ b → False := by
        intro h1 h2
        have := hab h1 h2
        simp [analyzingState, initialJob] at this
      obtain ⟨hterm, hiff, _, _, _, _⟩ := finalDisposition_facts (loopState cfg)
      refine ⟨a, b, (finalDisposition (loopState cfg)).status, ?_, hterm,
        ?_, ?_⟩
      · rw [runJob, if_neg hg, if_neg hc]
        simp only [List.map_cons, List.map_append, List.map_nil, hw2,
          statusWord, List.cons_append, List.append_assoc, List.nil_append]
        rfl
      · intro hcompl
        by_contra hb0
        have hb0z : b = 0 := by omega
        have h1 := hiff.mp hcompl
        rw [hprs2 hb0z] at h1
        simp at h1
      · intro hb1
        by_contra ha0
        exact hab2 (by omega) hb1

/-! ## Index and chain lemmas for status words -/

/-- Length of a status word. -/
theorem statusWord_length (a b : Nat) (t : Status) :
    (statusWord a b t).length = a + b + 2 := by
  simp [statusWord]
  omega

/-- Status of a word by position. -/
theorem statusWord_get (a b : Nat) (t : Status) (i : Nat)
    (h : i < a + b + 2) :
    (statusWord a b t).get
        ⟨i, by rw [statusWord_length]; exact h⟩ = statusAt a b t i := by
  cases i with
  | zero => simp [statusWord, statusAt]
  | succ j =>
    simp only [statusWord, List.get_eq_getElem, List.getElem_cons_succ]
    by_cases hja : j < a
    · rw [List.getElem_append_left (by simpa using hja)]
      rw [List.getElem_replicate]
      rw [statusAt, if_neg (by omega), if_pos (by omega)]
    · by_cases hjb : j < a + b
      · rw [List.getElem_append_right (by simpa using hja)]
        rw [List.getElem_append_left
          (by simp; omega)]
        rw [List.getElem_replicate]
        rw [statusAt, if_neg (by omega), if_neg (by omega),
          if_pos (by omega)]
      · rw [List.getElem_append_right (by simp; omega)]
        rw [List.getElem_append_right (by simp; omega)]
        simp only [List.getElem_singleton]
        rw [statusAt, if_neg (by omega), if_neg (by omega),
          if_neg (by omega)]

/-- Prepending a replicate block preserves the stuttering diagram chain. -/
theorem chain_replicate_append (x : Status) (l : List Status) (n : Nat)
    (hl : List.Chain' (fun p q => p = q ∨ diagramEdge p q) l)
    (hhead : ∀ y ∈ l.head?, x = y ∨ diagramEdge x y) :
    List.Chain' (fun p q => p = q ∨ diagramEdge p q)
      (List.replicate n x ++ l) := by
  induction n with
  | zero => simpa using hl
  | succ m ih =>
    rw [List.replicate_succ, List.cons_append, List.chain'_cons']
    refine ⟨?_, ih⟩
    intro y hy
    cases m with
    | zero =>
      simp only [List.replicate_zero, List.nil_append] at hy
      exact hhead y hy
    | succ k =>
      simp only [List.replicate_succ, List.cons_append, List.head?_cons,
        Option.mem_def, Option.some.injEq] at hy
      left
      exact hy

/-- Every status word is a stuttering path of the amended diagram. -/
theorem statusWord_chain (a b : Nat) (t : Status)
    (ht : t = .completed ∨ t = .failed)
    (htb : t = .completed → 1 ≤ b) (hab : 1 ≤ b → 1 ≤ a) :
    List.Chain' (fun p q => p = q ∨ diagramEdge p q) (statusWord a b t) := by
  have hl1 : List.Chain' (fun p q => p = q ∨ diagramEdge p q) [t] := by simp
  have hl2 : List.Chain' (fun p q => p = q ∨ diagramEdge p q)
      (List.replicate b Status.creating_prs ++ [t]) := by
    refine chain_replicate_append _ _ _ hl1 ?_
    intro y hy
    simp only [List.head?_cons, Option.mem_def, Option.some.injEq] at hy
    subst hy
    right
    rcases ht with h | h <;> rw [h] <;>
      exact Or.inr (Or.inr ⟨rfl, by simp⟩)
  have hl3 : List.Chain' (fun p q => p = q ∨ diagramEdge p q)
      (List.replicate a Status.analyzing
        ++ (List.replicate b Status.creating_prs ++ [t])) := by
    refine chain_replicate_append _ _ _ hl2 ?_
    intro y hy
    cases b with
    | zero =>
      simp only [List.replicate_zero, List.nil_append, List.head?_cons,
        Option.mem_def, Option.some.injEq] at hy
      subst hy
      rcases ht with h | h
      · exact absurd (htb h) (by omega)
      · rw [h]
        exact Or.inr (Or.inr (Or.inl ⟨rfl, Or.inr rfl⟩))
    | succ k =>
      simp only [List.replicate_succ, List.cons_append, List.head?_cons,
        Option.mem_def, Option.some.injEq] at hy
      subst hy
      exact Or.inr (Or.inr (Or.inl ⟨rfl, Or.inl rfl⟩))
  rw [statusWord, List.chain'_cons']
  refine ⟨?_, hl3⟩
  intro y hy
  cases a with
  | zero =>
    cases b with
    | zero =>
      simp only [List.replicate_zero, List.nil_append, List.head?_cons,
        Option.mem_def, Option.some.injEq] at hy
      subst hy
      rcases ht with h | h
      · exact absurd (htb h) (by omega)
      · rw [h]
        exact Or.inr (Or.inl ⟨rfl, Or.inr rfl⟩)
    | succ k =>
      exact absurd (hab (by omega)) (by omega)
  | succ m =>
    simp only [List.replicate_succ, List.cons_append, List.head?_cons,
      Option.mem_def, Option.some.injEq] at hy
    subst hy
    exact Or.inr (Or.inl ⟨rfl, Or.inl rfl⟩)

/-- The statuses occurring in a status word. -/
theorem statusWord_mem (a b : Nat) (t : Status) (s : Status)
    (hs : s ∈ statusWord a b t) :
    s = .pending ∨ s = .analyzing ∨ s = .creating_prs ∨ s = t := by
  simp only [statusWord, List.mem_cons, List.mem_append,
    List.mem_replicate, List.mem_singleton] at hs
  tauto

/-- `getD` form of `statusWord_get`. -/
theorem statusWord_getD (a b : Nat) (t : Status) (i : Nat)
    (h : i < a + b + 2) (d : Status) :
    (statusWord a b t).getD i d = statusAt a b t i := by
  have h2 : i < (statusWord a b t).length := by
    rw [statusWord_length]
    exact h
  rw [List.getD_eq_getElem _ _ h2]
  exact statusWord_get a b t i h

/-- A status word never leaves and re-enters a state: between two positions
with equal statuses, every status is that same status. -/
theorem statusAt_no_revisit (a b : Nat) (t : Status)
    (ht : t = .completed ∨ t = .failed) (i k j : Nat)
    (hik : i ≤ k) (hkj : k ≤ j)
    (heq : statusAt a b t i = statusAt a b t j) :
    statusAt a b t k = statusAt a b t i := by
  rcases ht with ht | ht <;>
    (subst ht; unfold statusAt at * ; split_ifs at * <;> first | rfl | omega)

/-- In a status word the terminal status appears only at the last
position. -/
theorem statusAt_terminal (a b : Nat) (t : Status)
    (i : Nat) (hi : i < a + b + 2)
    (h : statusAt a b t i = .completed ∨ statusAt a b t i = .failed) :
    i = a + b + 1 := by
  unfold statusAt at h
  split_ifs at h <;> first | omega | simp_all

/-- In a status word, `creating_prs` appears only strictly inside the
`creating_prs` block. -/
theorem statusAt_creating_prs (a b : Nat) (t : Status)
    (ht : t = .completed ∨ t = .failed) (j : Nat)
    (h : statusAt a b t j = .creating_prs) :
    a < j ∧ j ≤ a + b := by
  unfold statusAt at h
  rcases ht with ht | ht <;> (subst ht; split_ifs at h; omega)

/-- `statusAt` at a position inside the `analyzing` block. -/
theorem statusAt_analyzing (a b : Nat) (t : Status) (i : Nat)
    (h1 : i ≠ 0) (h2 : i ≤ a) : statusAt a b t i = .analyzing := by
  rw [statusAt, if_neg h1, if_pos h2]

/-! ## Claim C3 — the observable status path -/

/-- **C3, counterexample.**  The code never assigns `generating_fixes`: a
job that reaches `creating_prs` was never in `generating_fixes` (it comes
directly from `analyzing`), contradicting the claimed diagram; moreover a
run with the change-submission collaborator unconfigured goes `pending →
failed` without passing through `analyzing`, which the claimed diagram also
forbids. -/
theorem c3_counterexample :
    (Status.creating_prs ∈
        (runJob ⟨true, [⟨1, .orchOk ⟨true, ["fix"]⟩ (.ok "url")⟩]⟩).trace.map
          (·.status)
      ∧ Status.generating_fixes ∉
        (runJob ⟨true, [⟨1, .orchOk ⟨true, ["fix"]⟩ (.ok "url")⟩]⟩).trace.map
          (·.status))
    ∧ (runJob ⟨false, []⟩).trace.map (·.status)
        = [Status.pending, Status.failed] := by
  refine ⟨⟨?_, ?_⟩, ?_⟩ <;>
    simp [runJob, loopRun, loopState, processCandidates, processCandidate,
      finalDisposition, initialJob, analyzingState, optStrFalsy]

/-- **C3 (amended).**  For every run, the observable status sequence is a
stuttering path of the diagram `pending → {analyzing | failed}`,
`analyzing → {creating_prs | failed}`, `creating_prs → {completed | failed}`
(the `generating_fixes` state of the claimed diagram is never entered, and
jobs reach `creating_prs` directly from `analyzing`): it starts at
`pending`, consecutive statuses are equal or an edge of that diagram, no
status is left and re-entered, a terminal status appears only at the last
position, `generating_fixes` never appears, and every observed
`creating_prs` is preceded by an observed `analyzing`. -/
theorem c3_status_path_amended (cfg : JobConfig) :
    ((runJob cfg).trace.map (·.status)).head? = some Status.pending
    ∧ List.Chain' (fun x y => x = y ∨ diagramEdge x y)
        ((runJob cfg).trace.map (·.status))
    ∧ (∀ i k j : Nat, i ≤ k → k ≤ j →
        j < ((runJob cfg).trace.map (·.status)).length →
        ((runJob cfg).trace.map (·.status)).getD i .pending
          = ((runJob cfg).trace.map (·.status)).getD j .pending →
        ((runJob cfg).trace.map (·.status)).getD k .pending
          = ((runJob cfg).trace.map (·.status)).getD i .pending)
    ∧ (∀ i : Nat, i < ((runJob cfg).trace.map (·.status)).length →
        (((runJob cfg).trace.map (·.status)).getD i .pending = .completed
          ∨ ((runJob cfg).trace.map (·.status)).getD i .pending = .failed) →
        i = ((runJob cfg).trace.map (·.status)).length - 1)
    ∧ Status.generating_fixes ∉ (runJob cfg).trace.map (·.status)
    ∧ (∀ j : Nat, j < ((runJob cfg).trace.map (·.status)).length →
        ((runJob cfg).trace.map (·.status)).getD j .pending = .creating_prs →
        ∃ i : Nat, i < j ∧
          ((runJob cfg).trace.map (·.status)).getD i .pending
            = .analyzing) := by
  obtain ⟨a, b, t, hword, ht, htb, hab⟩ := runJob_status_word cfg
  rw [hword, statusWord_length]
  refine ⟨by simp [statusWord], statusWord_chain a b t ht htb hab,
    ?_, ?_, ?_, ?_⟩
  · intro i k j hik hkj hj heq
    rw [statusWord_getD _ _ _ _ (by omega), statusWord_getD _ _ _ _ hj] at heq
    rw [statusWord_getD _ _ _ _ (by omega), statusWord_getD _ _ _ _ (by omega)]
    exact statusAt_no_revisit a b t ht i k j hik hkj heq
  · intro i hi hterm
    rw [statusWord_getD _ _ _ _ hi] at hterm
    have := statusAt_terminal a b t i hi hterm
    omega
  · intro hmem
    have := statusWord_mem a b t _ hmem
    rcases ht with ht | ht <;> subst ht <;> simp_all
  · intro j hj hcp
    rw [statusWord_getD _ _ _ _ hj] at hcp
    obtain ⟨haj, _⟩ := statusAt_creating_prs a b t ht j hcp
    have hb1 : 1 ≤ b := by
      by_contra hb0
      have hb0z : b = 0 := by omega
      have := statusAt_creating_prs a b t ht j hcp
      omega
    have ha1 : 1 ≤ a := hab hb1
    refine ⟨1, by omega, ?_⟩
    rw [statusWord_getD _ _ _ _ (by omega)]
    exact statusAt_analyzing a b t 1 (by omega) (by omega)

/-- **C3 witness**: the amended path properties at a concrete run. -/
theorem c3_witness :
    ((runJob ⟨true, [⟨1, .cloneErr "boom"⟩]⟩).trace.map
        (·.status)).head? = some Status.pending
    ∧ List.Chain' (fun x y => x = y ∨ diagramEdge x y)
        ((runJob ⟨true, [⟨1, .cloneErr "boom"⟩]⟩).trace.map (·.status))
    ∧ (∀ i k j : Nat, i ≤ k → k ≤ j →
        j < ((runJob ⟨true, [⟨1, .cloneErr "boom"⟩]⟩).trace.map
          (·.status)).length →
        ((runJob ⟨true, [⟨1, .cloneErr "boom"⟩]⟩).trace.map
          (·.status)).getD i .pending
          = ((runJob ⟨true, [⟨1, .cloneErr "boom"⟩]⟩).trace.map
            (·.status)).getD j .pending →
        ((runJob ⟨true, [⟨1, .cloneErr "boom"⟩]⟩).trace.map
          (·.status)).getD k .pending
          = ((runJob ⟨true, [⟨1, .cloneErr "boom"⟩]⟩).trace.map
            (·.status)).getD i .pending)
    ∧ (∀ i : Nat, i < ((runJob ⟨true, [⟨1, .cloneErr "boom"⟩]⟩).trace.map
          (·.status)).length →
        (((runJob ⟨true, [⟨1, .cloneErr "boom"⟩]⟩).trace.map
            (·.status)).getD i .pending = .completed
          ∨ ((runJob ⟨true, [⟨1, .cloneErr "boom"⟩]⟩).trace.map
            (·.status)).getD i .pending = .failed) →
        i = ((runJob ⟨true, [⟨1, .cloneErr "boom"⟩]⟩).trace.map
          (·.status)).length - 1)
    ∧ Status.generating_fixes ∉
        (runJob ⟨true, [⟨1, .cloneErr "boom"⟩]⟩).trace.map (·.status)
    ∧ (∀ j : Nat, j < ((runJob ⟨true, [⟨1, .cloneErr "boom"⟩]⟩).trace.map
          (·.status)).length →
        ((runJob ⟨true, [⟨1, .cloneErr "boom"⟩]⟩).trace.map
          (·.status)).getD j .pending = .creating_prs →
        ∃ i : Nat, i < j ∧
          ((runJob ⟨true, [⟨1, .cloneErr "boom"⟩]⟩).trace.map
            (·.status)).getD i .pending = .analyzing) :=
  c3_status_path_amended ⟨true, [⟨1, .cloneErr "boom"⟩]⟩

/-! ## Claim C9 — terminal snapshots are immutable -/

/-- **C9.**  Once a snapshot of the observable trace shows a terminal status
(`completed` or `failed`), every later snapshot is identical to it: the
terminal status is observable only at the final position of the trace, and
the final state persists unchanged. -/
theorem c9_terminal_immutable (cfg : JobConfig) (i j : Nat)
    (hi : i < (runJob cfg).trace.length) (hj : j < (runJob cfg).trace.length)
    (hij : i ≤ j)
    (ht : ((runJob cfg).trace.get ⟨i, hi⟩).status = .completed
        ∨ ((runJob cfg).trace.get ⟨i, hi⟩).status = .failed) :
    (runJob cfg).trace.get ⟨i, hi⟩ = (runJob cfg).trace.get ⟨j, hj⟩ := by
  obtain ⟨a, b, t, hword, htt, htb, hab⟩ := runJob_status_word cfg
  have hlen : (runJob cfg).trace.length = a + b + 2 := by
    have h := congrArg List.length hword
    rw [List.length_map, statusWord_length] at h
    exact h
  have hmap : ∀ (n : Nat) (hn : n < (runJob cfg).trace.length),
      ((runJob cfg).trace.get ⟨n, hn⟩).status = statusAt a b t n := by
    intro n hn
    have hn2 : n < ((runJob cfg).trace.map (·.status)).length := by
      simpa using hn
    have e1 : ((runJob cfg).trace.map (·.status)).get ⟨n, hn2⟩
        = statusAt a b t n := by
      simp only [List.get_eq_getElem, hword]
      exact statusWord_get a b t n (by omega)
    have e3 : ((runJob cfg).trace.map (·.status)).get ⟨n, hn2⟩
        = ((runJob cfg).trace.get ⟨n, hn⟩).status := by
      simp [List.get_eq_getElem, List.getElem_map]
    rw [← e3, e1]
  rw [hmap i hi] at ht
  have hi2 : i = a + b + 1 := statusAt_terminal a b t i (by omega) ht
  have hj2 : j = i := by omega
  subst hj2
  rfl

/-- **C9 witness**: at a concrete run whose second snapshot is terminal. -/
theorem c9_witness :
    (((runJob ⟨false, []⟩).trace.get ⟨1, by decide⟩).status = .completed
      ∨ ((runJob ⟨false, []⟩).trace.get ⟨1, by decide⟩).status = .failed)
    ∧ (runJob ⟨false, []⟩).trace.get ⟨1, by decide⟩
        = (runJob ⟨false, []⟩).trace.get ⟨1, by decide⟩ :=
  ⟨Or.inr rfl,
    c9_terminal_immutable ⟨false, []⟩ 1 1 (by decide) (by decide)
      (le_refl 1) (Or.inr rfl)⟩

/-! ## Claim C4 — final disposition -/

/-- **C4.**  For every run that reaches the end of the candidate iteration
(handler configured and at least one ranked candidate — the two early-return
paths never reach it), the job ends `completed` iff its pull-request list is
non-empty (Python truthiness), otherwise `failed` with the error message
defaulting to the generic `"No pull requests created"` exactly when no more
specific error was recorded (Python-falsy) during the loop; and
`completed_at` is assigned exactly once, at the terminal transition: one
write, unset in every earlier snapshot, set in the final state, which is the
last snapshot of the trace. -/
theorem c4_final_disposition (cfg : JobConfig)
    (hg : cfg.githubConfigured = true) (hc : cfg.candidates ≠ []) :
    ((runJob cfg).final.status = .completed ↔
        (runJob cfg).final.pullRequests.getD [] ≠ [])
    ∧ ((runJob cfg).final.status = .completed
        ∨ (runJob cfg).final.status = .failed)
    ∧ ((runJob cfg).final.status = .failed →
        (runJob cfg).final.errorMessage
          = if optStrFalsy (loopState cfg).errorMessage then some noPrsMsg
            else (loopState cfg).errorMessage)
    ∧ ((runJob cfg).final.status = .completed →
        (runJob cfg).final.errorMessage = (loopState cfg).errorMessage)
    ∧ (runJob cfg).completedAtWrites = 1
    ∧ (∀ s ∈ (runJob cfg).trace.dropLast, s.completedAt = none)
    ∧ (runJob cfg).final.completedAt = some ()
    ∧ (runJob cfg).trace.getLast? = some ((runJob cfg).final) := by
  have hrunEq : runJob cfg =
      { final := finalDisposition (loopState cfg),
        trace := initialJob :: (loopRun cfg).2.1
          ++ [finalDisposition (loopState cfg)],
        visited := (loopRun cfg).2.2, completedAtWrites := 1 } := by
    rw [runJob, if_neg (by rw [hg]; simp), if_neg hc]
  obtain ⟨hterm, hiff, hprs, hca, herrF, herrC⟩ :=
    finalDisposition_facts (loopState cfg)
  rw [hrunEq]
  refine ⟨?_, hterm, herrF, herrC, rfl, ?_, hca, ?_⟩
  · rw [hprs]
    exact hiff
  · intro s hs
    rw [List.dropLast_concat] at hs
    rcases List.mem_cons.mp hs with hs | hs
    · rw [hs]
      rfl
    · exact (processCandidates_completedAt _ analyzingState).2 s hs
  · exact List.getLast?_concat _

/-- Concrete run configuration for the C4 witness. -/
def c4WitnessCfg : JobConfig := ⟨true, [⟨1, .cloneErr "x"⟩]⟩

/-- **C4 witness**: the final disposition at a concrete run. -/
theorem c4_witness :
    c4WitnessCfg.githubConfigured = true
    ∧ c4WitnessCfg.candidates ≠ []
    ∧ (((runJob c4WitnessCfg).final.status = .completed ↔
        (runJob c4WitnessCfg).final.pullRequests.getD [] ≠ [])
      ∧ ((runJob c4WitnessCfg).final.status = .completed
          ∨ (runJob c4WitnessCfg).final.status = .failed)
      ∧ ((runJob c4WitnessCfg).final.status = .failed →
          (runJob c4WitnessCfg).final.errorMessage
            = if optStrFalsy (loopState c4WitnessCfg).errorMessage
              then some noPrsMsg else (loopState c4WitnessCfg).errorMessage)
      ∧ ((runJob c4WitnessCfg).final.status = .completed →
          (runJob c4WitnessCfg).final.errorMessage
            = (loopState c4WitnessCfg).errorMessage)
      ∧ (runJob c4WitnessCfg).completedAtWrites = 1
      ∧ (∀ s ∈ (runJob c4WitnessCfg).trace.dropLast, s.completedAt = none)
      ∧ (runJob c4WitnessCfg).final.completedAt = some ()
      ∧ (runJob c4WitnessCfg).trace.getLast?
          = some ((runJob c4WitnessCfg).final)) :=
  ⟨rfl, by decide, c4_final_disposition c4WitnessCfg rfl (by decide)⟩

/-! ## Claim C5 — candidate cap and non-fatal per-candidate errors -/

/-- **C5.**  Candidate processing visits at most the first 2 ranked
candidates — exactly the 2-prefix of the ranked list, in its order, so in
descending relevance order whenever the ranked list is sorted descending —
and a per-candidate exception records its message without stopping later
candidates: a job whose first candidate fails during clone and whose second
succeeds end-to-end ends `completed` with exactly the one pull-request URL
and the first candidate's error message still recorded. -/
theorem c5_candidate_cap (cfg : JobConfig)
    (hg : cfg.githubConfigured = true) :
    (runJob cfg).visited.length ≤ 2
    ∧ (cfg.candidates ≠ [] →
        (runJob cfg).visited = (cfg.candidates.take 2).map (·.outcome))
    ∧ (List.Pairwise (fun c1 c2 => c2.score ≤ c1.score) cfg.candidates →
        List.Pairwise (fun c1 c2 => c2.score ≤ c1.score)
          (cfg.candidates.take 2))
    ∧ (∀ (q1 q2 : ℚ) (m url : String) (fixes : List String), fixes ≠ [] →
        cfg.candidates = [⟨q1, .cloneErr m⟩,
          ⟨q2, .orchOk ⟨true, fixes⟩ (.ok url)⟩] →
        (runJob cfg).final.status = .completed
        ∧ (runJob cfg).final.pullRequests = some [url]
        ∧ (runJob cfg).final.errorMessage = some m) := by
  have hvis : cfg.candidates ≠ [] →
      (runJob cfg).visited = (cfg.candidates.take 2).map (·.outcome) := by
    intro hc
    rw [runJob, if_neg (by rw [hg]; simp), if_neg hc]
    exact processCandidates_visited _ _
  refine ⟨?_, hvis, ?_, ?_⟩
  · by_cases hc : cfg.candidates = []
    · rw [runJob, if_neg (by rw [hg]; simp), if_pos hc]
      simp
    · rw [hvis hc]
      simp only [List.length_map, List.length_take]
      omega
  · intro hp
    exact hp.sublist (List.take_sublist 2 _)
  · intro q1 q2 m url fixes hfix hcand
    have hc : cfg.candidates ≠ [] := by rw [hcand]; simp
    rw [runJob, if_neg (by rw [hg]; simp), if_neg hc]
    simp only [loopState, loopRun, hcand]
    simp [processCandidates, processCandidate, hfix, finalDisposition,
      analyzingState, initialJob, List.take]

/-- Concrete run configuration for the C5 witness: candidate 1 fails during
clone, candidate 2 succeeds end-to-end. -/
def c5WitnessCfg : JobConfig :=
  ⟨true, [⟨1, .cloneErr "clone failed"⟩,
    ⟨1/2, .orchOk ⟨true, ["fix"]⟩ (.ok "https://pr/1")⟩]⟩

/-- **C5 witness**: the cap and error-continuation behaviour at the concrete
two-candidate run. -/
theorem c5_witness :
    c5WitnessCfg.githubConfigured = true
    ∧ ((runJob c5WitnessCfg).visited.length ≤ 2
      ∧ (c5WitnessCfg.candidates ≠ [] →
          (runJob c5WitnessCfg).visited
            = (c5WitnessCfg.candidates.take 2).map (·.outcome))
      ∧ (List.Pairwise (fun c1 c2 => c2.score ≤ c1.score)
            c5WitnessCfg.candidates →
          List.Pairwise (fun c1 c2 => c2.score ≤ c1.score)
            (c5WitnessCfg.candidates.take 2))
      ∧ (∀ (q1 q2 : ℚ) (m url : String) (fixes : List String), fixes ≠ [] →
          c5WitnessCfg.candidates = [⟨q1, .cloneErr m⟩,
            ⟨q2, .orchOk ⟨true, fixes⟩ (.ok url)⟩] →
          (runJob c5WitnessCfg).final.status = .completed
          ∧ (runJob c5WitnessCfg).final.pullRequests = some [url]
          ∧ (runJob c5WitnessCfg).final.errorMessage = some m)) :=
  ⟨rfl, c5_candidate_cap c5WitnessCfg rfl⟩

/-! ## Claim C6 — unconfigured change-submission collaborator -/

/-- **C6.**  When the GitHub handler is unconfigured, the observable status
sequence is exactly `pending, failed` with the fixed error message: the
transient `analyzing` assignment of line 116 is overwritten within the same
coroutine chunk (no `await` between lines 116 and 121), so no caller polling
the job ever observes `analyzing`. -/
theorem c6_unconfigured_direct_fail (cfg : JobConfig)
    (h : cfg.githubConfigured = false) :
    (runJob cfg).trace.map (·.status) = [Status.pending, Status.failed]
    ∧ (runJob cfg).final.errorMessage = some noHandlerMsg
    ∧ ∀ s ∈ (runJob cfg).trace, s.status ≠ Status.analyzing := by
  refine ⟨?_, ?_, ?_⟩ <;>
    simp [runJob, h, initialJob, analyzingState]

/-- **C6 witness**: the unconfigured-handler run. -/
theorem c6_witness :
    (runJob ⟨false, []⟩).trace.map (·.status)
      = [Status.pending, Status.failed]
    ∧ (runJob ⟨false, []⟩).final.errorMessage = some noHandlerMsg
    ∧ ∀ s ∈ (runJob ⟨false, []⟩).trace, s.status ≠ Status.analyzing :=
  c6_unconfigured_direct_fail ⟨false, []⟩ rfl

/-! ## JSON values and `CloudWatchAlert.from_sns_message`

`from_sns_message` reads an SNS message as a mapping; when it carries a
`"Message"` key it decodes that value with `json.loads` and extracts the
alarm fields from the result, otherwise it extracts them from the mapping
itself; any decode failure (or a decoded payload that is not a mapping, on
which `.get` raises) becomes a raised `ValueError`, modelled as `none`.

JSON values are the mutually inductive `JVal`/`JArr`/`JObj` (null, booleans,
integers, strings, arrays, objects); `encodeJson` is a standard compact JSON
encoder (strings escape `"`, `\` and control characters as `\uXXXX`), and
`parseVal` is a fuel-indexed recursive-descent reader of the same grammar, so
that `json.loads` applied to a `json.dumps` output is modelled by a proved
`parse ∘ encode = id` roundtrip.  Field values that are not JSON strings are
extracted as the empty string (the dataclass declares the nine fields as
`str`; no claim distinguishes the raw value). -/

mutual
/-- A JSON value. -/
inductive JVal where
  | null
  | bool (b : Bool)
  | num (n : Int)
  | str (s : String)
  | arr (elems : JArr)
  | obj (fields : JObj)
/-- A JSON array. -/
inductive JArr where
  | nil
  | cons (hd : JVal) (tl : JArr)
/-- A JSON object: an ordered field list (a Python dict has unique keys). -/
inductive JObj where
  | nil
  | cons (key : String) (val : JVal) (tl : JObj)
end

/-- Decimal digit character. -/
def digitChar (d : Nat) : Char := Char.ofNat (48 + d)

/-- Big-endian decimal digits of `n`, fuelled (`fuel ≥ n` suffices). -/
def natDigitsAux : Nat → Nat → List Char
  | 0, _ => []
  | fuel + 1, n =>
    if n < 10 then [digitChar n]
    else natDigitsAux fuel (n / 10) ++ [digitChar (n % 10)]

/-- Decimal rendering of a natural number. -/
def natDigits (n : Nat) : List Char :=
  if n = 0 then ['0'] else natDigitsAux n n

/-- Decimal rendering of an integer. -/
def encodeInt : Int → List Char
  | Int.ofNat m => natDigits m
  | Int.negSucc m => '-' :: natDigits (m + 1)

/-- Hexadecimal digit character (lower-case letters). -/
def hexDigitChar (d : Nat) : Char :=
  if d < 10 then Char.ofNat (48 + d) else Char.ofNat (87 + d)

/-- Four-digit hexadecimal rendering, for `\uXXXX` escapes. -/
def hex4 (n : Nat) : List Char :=
  [hexDigitChar (n / 4096 % 16), hexDigitChar (n / 256 % 16),
   hexDigitChar (n / 16 % 16), hexDigitChar (n % 16)]

/-- Value of a hexadecimal digit character. -/
def hexVal (c : Char) : Option Nat :=
  if '0' ≤ c ∧ c ≤ '9' then some (c.toNat - 48)
  else if 'a' ≤ c ∧ c ≤ 'f' then some (c.toNat - 87)
  else if 'A' ≤ c ∧ c ≤ 'F' then some (c.toNat - 55)
  else none

/-- String-character escaping: `"`, `\` and control characters become
`\uXXXX`, everything else is emitted raw. -/
def escChar (c : Char) : List Char :=
  if c = '"' ∨ c = '\\' ∨ c.toNat < 32 then '\\' :: 'u' :: hex4 c.toNat
  else [c]

/-- Escaped body of a JSON string literal. -/
def escBody : List Char → List Char
  | [] => []
  | c :: cs => escChar c ++ escBody cs

/-- A JSON string literal. -/
def encodeStr (s : String) : List Char := '"' :: escBody s.toList ++ ['"']

/-- Characters of the rendered keyword `null`. -/
def litNull : List Char := ['n', 'u', 'l', 'l']

/-- Characters of the rendered keyword `true`. -/
def litTrue : List Char := ['t', 'r', 'u', 'e']

/-- Characters of the rendered keyword `false`. -/
def litFalse : List Char := ['f', 'a', 'l', 's', 'e']

mutual
/-- Compact JSON rendering of a value. -/
def encodeV : JVal → List Char
  | .null => litNull
  | .bool true => litTrue
  | .bool false => litFalse
  | .num n => encodeInt n
  | .str s => encodeStr s
  | .arr l => '[' :: encodeElems l ++ [']']
  | .obj o => '\x7b' :: encodeFields o ++ ['\x7d']
/-- Comma-separated renderings of array elements. -/
def encodeElems : JArr → List Char
  | .nil => []
  | .cons v .nil => encodeV v
  | .cons v vs => encodeV v ++ ',' :: encodeElems vs
/-- Comma-separated renderings of object fields. -/
def encodeFields : JObj → List Char
  | .nil => []
  | .cons k v .nil => encodeStr k ++ ':' :: encodeV v
  | .cons k v fs => encodeStr k ++ ':' :: encodeV v ++ ',' :: encodeFields fs
end

mutual
/-- Fuel measure for parsing a value. -/
def sizeV : JVal → Nat
  | .null => 1
  | .bool _ => 1
  | .num _ => 1
  | .str _ => 1
  | .arr l => 1 + sizeA l
  | .obj o => 1 + sizeO o
/-- Fuel measure for parsing array elements. -/
def sizeA : JArr → Nat
  | .nil => 1
  | .cons v vs => 1 + max (sizeV v) (sizeA vs)
/-- Fuel measure for parsing object fields. -/
def sizeO : JObj → Nat
  | .nil => 1
  | .cons _ v fs => 1 + max (sizeV v) (sizeO fs)
end

/-- Maximal run of decimal digits, Horner-accumulated. -/
def parseDigits : List Char → Nat → Nat × List Char
  | [], acc => (acc, [])
  | c :: cs, acc =>
    if c.isDigit then parseDigits cs (10 * acc + (c.toNat - 48))
    else (acc, c :: cs)

mutual
/-- Body of a JSON string literal: everything up to the closing quote, with
`\uXXXX` escapes decoded. -/
def parseStrBody : List Char → Option (List Char × List Char)
  | [] => none
  | c :: cs =>
    if c = '"' then some ([], cs)
    else if c = '\\' then parseStrEsc cs
    else
      match parseStrBody cs with
      | some (body, rest) => some (c :: body, rest)
      | none => none
/-- A pending `\uXXXX` escape (after the backslash): the `u`, four hex
digits, then the rest of the string body. -/
def parseStrEsc : List Char → Option (List Char × List Char)
  | 'u' :: h1 :: h2 :: h3 :: h4 :: cs2 =>
    match hexVal h1, hexVal h2, hexVal h3, hexVal h4 with
    | some d1, some d2, some d3, some d4 =>
      match parseStrBody cs2 with
      | some (body, rest) =>
        some (Char.ofNat (4096 * d1 + 256 * d2 + 16 * d3 + d4) :: body, rest)
      | none => none
    | _, _, _, _ => none
  | _ => none
end

/-- Expect a literal character sequence and return the remainder. -/
def dropLit : List Char → List Char → Option (List Char)
  | [], cs => some cs
  | _ :: _, [] => none
  | k :: ks, c :: cs => if c = k then dropLit ks cs else none

/-- A negative number after the sign character. -/
def parseNegNum : List Char → Option (JVal × List Char)
  | [] => none
  | c2 :: cs2 =>
    if c2.isDigit then
      match parseDigits (c2 :: cs2) 0 with
      | (n, rest) => some (.num (-(n : Int)), rest)
    else none

mutual
/-- Fuel-indexed recursive-descent reader of a JSON value. -/
def parseVal : Nat → List Char → Option (JVal × List Char)
  | 0, _ => none
  | _ + 1, [] => none
  | fuel + 1, c :: cs =>
    if c = 'n' then
      match dropLit ['u', 'l', 'l'] cs with
      | some rest => some (.null, rest)
      | none => none
    else if c = 't' then
      match dropLit ['r', 'u', 'e'] cs with
      | some rest => some (.bool true, rest)
      | none => none
    else if c = 'f' then
      match dropLit ['a', 'l', 's', 'e'] cs with
      | some rest => some (.bool false, rest)
      | none => none
    else if c = '"' then
      match parseStrBody cs with
      | some (body, rest) => some (.str (String.mk body), rest)
      | none => none
    else if c = '[' then
      match parseElems fuel cs with
      | some (elems, rest) => some (.arr elems, rest)
      | none => none
    else if c = '\x7b' then
      match parseFields fuel cs with
      | some (fields, rest) => some (.obj fields, rest)
      | none => none
    else if c = '-' then parseNegNum cs
    else if c.isDigit then
      match parseDigits (c :: cs) 0 with
      | (n, rest) => some (.num (n : Int), rest)
    else none
/-- Reader of the remainder of a JSON array after the opening bracket. -/
def parseElems : Nat → List Char → Option (JArr × List Char)
  | 0, _ => none
  | _ + 1, [] => none
  | fuel + 1, c :: cs =>
    if c = ']' then some (.nil, cs)
    else
      match parseVal fuel (c :: cs) with
      | some (v, rest) =>
        match rest with
        | ',' :: rest2 =>
          match parseElems fuel rest2 with
          | some (elems, rest3) => some (.cons v elems, rest3)
          | none => none
        | ']' :: rest2 => some (.cons v .nil, rest2)
        | _ => none
      | none => none
/-- Reader of the remainder of a JSON object after the opening brace. -/
def parseFields : Nat → List Char → Option (JObj × List Char)
  | 0, _ => none
  | _ + 1, [] => none
  | fuel + 1, c :: cs =>
    if c = '\x7d' then some (.nil, cs)
    else if c = '"' then
      match parseStrBody cs with
      | some (key, rest2) =>
        match rest2 with
        | ':' :: rest3 =>
          match parseVal fuel rest3 with
          | some (v, rest4) =>
            match rest4 with
            | ',' :: rest5 =>
              match parseFields fuel rest5 with
              | some (fields, rest6) =>
                some (.cons (String.mk key) v fields, rest6)
              | none => none
            | '\x7d' :: rest5 => some (.cons (String.mk key) v .nil, rest5)
            | _ => none
          | none => none
        | _ => none
      | none => none
    else none
end

/-- `json.dumps` of a value (compact separators). -/
def encodeJson (v : JVal) : String := String.mk (encodeV v)

/-- `json.loads`: parse the whole string as one JSON value. -/
def jsonLoads (s : String) : Option JVal :=
  match parseVal (s.length + 1) s.toList with
  | some (v, []) => some v
  | _ => none

/-- Key lookup in a JSON object (`'key' in d` / `d['key']`). -/
def jLookup : JObj → String → Option JVal
  | .nil, _ => none
  | .cons k v fs, key => if k = key then some v else jLookup fs key

/-- `d.get(key, '')` restricted to string values (the nine alarm fields are
declared `str`; non-string values are extracted as `""`). -/
def jGetStr (d : JObj) (key : String) : String :=
  match jLookup d key with
  | some (.str s) => s
  | _ => ""

/-- Field extraction of `CloudWatchAlert.from_sns_message` (lines 38–48):
each named payload field, defaulting to the empty string. -/
def extractAlert (d : JObj) : CloudWatchAlert :=
  { alarm_name := jGetStr d "AlarmName",
    alarm_description := jGetStr d "AlarmDescription",
    metric_name := jGetStr d "MetricName",
    «namespace» := jGetStr d "Namespace",
    timestamp := jGetStr d "StateChangeTime",
    state := jGetStr d "NewStateValue",
    reason := jGetStr d "NewStateReason",
    region := jGetStr d "Region",
    account_id := jGetStr d "AWSAccountId" }

/-- `CloudWatchAlert.from_sns_message`: unwrap an SNS envelope (a `"Message"`
key holding a JSON-encoded string) or read the mapping directly; parse
failures (including a decoded payload that is not a mapping) raise
`ValueError`, modelled as `none`. -/
def fromSnsMessage (m : JObj) : Option CloudWatchAlert :=
  match jLookup m "Message" with
  | some v =>
    match v with
    | .str s =>
      match jsonLoads s with
      | some (.obj fields) => some (extractAlert fields)
      | _ => none
    | _ => none
  | none => some (extractAlert m)

/-- The SNS envelope `{"Message": s}` with `s` the JSON encoding of `m`. -/
def wrapEnvelope (m : JObj) : JObj :=
  .cons "Message" (.str (encodeJson (.obj m))) .nil

/-- Whether a character list does not begin with a decimal digit (after a
rendered number, the input may not continue with more digits). -/
def restOK : List Char → Bool
  | [] => true
  | c :: _ => !c.isDigit

/-! ## Digit and escape lemmas -/

/-- Decimal digit characters are digits. -/
theorem digitChar_isDigit (d : Nat) (h : d < 10) :
    (digitChar d).isDigit = true := by
  interval_cases d <;> decide

/-- Value of a decimal digit character. -/
theorem digitChar_toNat (d : Nat) (h : d < 10) :
    (digitChar d).toNat = 48 + d := by
  interval_cases d <;> decide

/-- Hexadecimal digit characters decode to their value. -/
theorem hexVal_hexDigitChar (d : Nat) (h : d < 16) :
    hexVal (hexDigitChar d) = some d := by
  interval_cases d <;> decide

/-- A digit character differs from any non-digit character. -/
theorem ne_of_isDigit (c x : Char) (h : c.isDigit = true)
    (hx : x.isDigit = false) : c = x → False := by
  intro he
  rw [he, hx] at h
  cases h

/-- Every character emitted by `natDigitsAux` is a digit. -/
theorem natDigitsAux_digits :
    ∀ (fuel n : Nat), ∀ c ∈ natDigitsAux fuel n, c.isDigit = true := by
  intro fuel
  induction fuel with
  | zero => intro n c hc; cases hc
  | succ f ih =>
    intro n c hc
    rw [natDigitsAux] at hc
    by_cases hn : n < 10
    · rw [if_pos hn] at hc
      rcases List.mem_singleton.mp hc with rfl
      exact digitChar_isDigit n hn
    · rw [if_neg hn] at hc
      rcases List.mem_append.mp hc with hc | hc
      · exact ih (n / 10) c hc
      · rcases List.mem_singleton.mp hc with rfl
        exact digitChar_isDigit _ (Nat.mod_lt n (by omega))

/-- `natDigitsAux` is non-empty with positive fuel. -/
theorem natDigitsAux_ne_nil (fuel n : Nat) (h : 1 ≤ fuel) :
    natDigitsAux fuel n ≠ [] := by
  cases fuel with
  | zero => omega
  | succ f =>
    rw [natDigitsAux]
    by_cases hn : n < 10
    · rw [if_pos hn]
      simp
    · rw [if_neg hn]
      simp

/-- Every character of a decimal rendering is a digit. -/
theorem natDigits_digits (n : Nat) : ∀ c ∈ natDigits n, c.isDigit = true := by
  intro c hc
  rw [natDigits] at hc
  by_cases h0 : n = 0
  · rw [if_pos h0] at hc
    rcases List.mem_singleton.mp hc with rfl
    decide
  · rw [if_neg h0] at hc
    exact natDigitsAux_digits n n c hc

/-- Decimal renderings are non-empty. -/
theorem natDigits_ne_nil (n : Nat) : natDigits n ≠ [] := by
  rw [natDigits]
  by_cases h0 : n = 0
  · rw [if_pos h0]
    simp
  · rw [if_neg h0]
    exact natDigitsAux_ne_nil n n (by omega)

/-- `parseDigits` consumes exactly a block of digits. -/
theorem parseDigits_append (ds : List Char) :
    ∀ (rest : List Char) (acc : Nat), (∀ c ∈ ds, c.isDigit = true) →
    restOK rest = true →
    parseDigits (ds ++ rest) acc
      = (ds.foldl (fun a c => 10 * a + (c.toNat - 48)) acc, rest) := by
  induction ds with
  | nil =>
    intro rest acc _ hrest
    cases rest with
    | nil => rfl
    | cons c cs =>
      rw [restOK] at hrest
      simp only [List.nil_append, List.foldl_nil, parseDigits]
      rw [if_neg (by simpa using hrest)]
  | cons d ds ih =>
    intro rest acc hds hrest
    simp only [List.cons_append, parseDigits, List.foldl_cons]
    rw [if_pos (hds d (List.mem_cons_self d ds))]
    exact ih rest _ (fun c hc => hds c (List.mem_cons_of_mem d hc)) hrest

/-- Horner value of the digits of `n`. -/
theorem foldl_natDigitsAux (fuel : Nat) :
    ∀ (n acc : Nat), 1 ≤ n → n ≤ fuel →
    (natDigitsAux fuel n).foldl (fun a c => 10 * a + (c.toNat - 48)) acc
      = acc * 10 ^ (natDigitsAux fuel n).length + n := by
  induction fuel with
  | zero => intro n acc h1 h2; omega
  | succ f ih =>
    intro n acc h1 h2
    rw [natDigitsAux]
    by_cases hn : n < 10
    · rw [if_pos hn]
      simp only [List.foldl_cons, List.foldl_nil, List.length_singleton,
        pow_one]
      rw [digitChar_toNat n hn]
      omega
    · rw [if_neg hn]
      rw [List.foldl_append]
      rw [ih (n / 10) acc (by omega) (by omega)]
      simp only [List.foldl_cons, List.foldl_nil, List.length_append,
        List.length_singleton]
      rw [digitChar_toNat (n % 10) (Nat.mod_lt n (by omega))]
      rw [pow_succ]
      have hmod : 48 + n % 10 - 48 = n % 10 := by omega
      rw [hmod]
      set p := 10 ^ (natDigitsAux f (n / 10)).length with hp
      have hdm := Nat.div_add_mod n 10
      set q := acc * p with hq
      ring_nf
      omega

/-- Parsing a decimal rendering followed by a digit-free remainder yields
the original number. -/
theorem parseDigits_natDigits (n : Nat) (rest : List Char)
    (hrest : restOK rest = true) :
    parseDigits (natDigits n ++ rest) 0 = (n, rest) := by
  rw [parseDigits_append (natDigits n) rest 0 (natDigits_digits n) hrest]
  rw [natDigits]
  by_cases h0 : n = 0
  · subst h0
    rw [if_pos rfl]
    rfl
  · rw [if_neg h0]
    rw [foldl_natDigitsAux n n 0 (by omega) (by omega)]
    simp

/-- Recomposition of a 16-bit value from its hexadecimal digits. -/
theorem hex4_decode (n : Nat) (h : n < 65536) :
    4096 * (n / 4096 % 16) + 256 * (n / 256 % 16) + 16 * (n / 16 % 16)
      + n % 16 = n := by
  omega

/-- `String.mk` inverts `String.toList`. -/
theorem stringMk_toList : ∀ s : String, String.mk s.toList = s
  | ⟨_⟩ => rfl

/-- Characters escape to at least one character. -/
theorem escBody_length (s : List Char) : s.length ≤ (escBody s).length := by
  induction s with
  | nil => simp [escBody]
  | cons c cs ih =>
    rw [escBody, escChar]
    by_cases hesc : c = '"' ∨ c = '\\' ∨ c.toNat < 32
    · rw [if_pos hesc]
      simp only [List.length_append, List.length_cons]
      omega
    · rw [if_neg hesc]
      simp only [List.length_append, List.length_cons, List.length_nil]
      omega

/-- The string-body reader inverts the escaper. -/
theorem parseStrBody_escBody (s : List Char) :
    ∀ rest : List Char,
    parseStrBody (escBody s ++ '"' :: rest) = some (s, rest) := by
  induction s with
  | nil =>
    intro rest
    rw [show escBody [] ++ '"' :: rest = '"' :: rest from rfl]
    rw [parseStrBody, if_pos rfl]
  | cons c cs ih =>
    intro rest
    rw [escBody]
    by_cases hesc : c = '"' ∨ c = '\\' ∨ c.toNat < 32
    · have hlt : c.toNat < 65536 := by
        rcases hesc with h | h | h
        · subst h; decide
        · subst h; decide
        · omega
      rw [escChar, if_pos hesc]
      simp only [hex4, List.cons_append, List.append_assoc]
      rw [parseStrBody, if_neg (by decide), if_pos rfl]
      rw [parseStrEsc]
      rw [hexVal_hexDigitChar _ (Nat.mod_lt _ (by omega)),
        hexVal_hexDigitChar _ (Nat.mod_lt _ (by omega)),
        hexVal_hexDigitChar _ (Nat.mod_lt _ (by omega)),
        hexVal_hexDigitChar _ (Nat.mod_lt _ (by omega))]
      simp only [List.nil_append]
      rw [ih rest]
      rw [hex4_decode c.toNat hlt, Char.ofNat_toNat]
    · rw [escChar, if_neg hesc]
      push_neg at hesc
      obtain ⟨h1, h2, _⟩ := hesc
      simp only [List.cons_append, List.nil_append]
      rw [parseStrBody, if_neg h1, if_neg h2]
      rw [ih rest]

/-- `dropLit` accepts exactly its literal prefix. -/
theorem dropLit_append (ks : List Char) :
    ∀ cs : List Char, dropLit ks (ks ++ cs) = some cs := by
  induction ks with
  | nil => intro cs; rfl
  | cons k ks ih =>
    intro cs
    rw [List.cons_append, dropLit, if_pos rfl]
    exact ih cs

/-- A digit character heads no keyword, string, bracket, brace or sign. -/
theorem isDigit_head_facts (c : Char) (h : c.isDigit = true) :
    ¬ c = 'n' ∧ ¬ c = 't' ∧ ¬ c = 'f' ∧ ¬ c = '"' ∧ ¬ c = '[' ∧
      ¬ c = '\x7b' ∧ ¬ c = '-' ∧ ¬ c = ']' :=
  ⟨ne_of_isDigit c 'n' h (by decide), ne_of_isDigit c 't' h (by decide),
   ne_of_isDigit c 'f' h (by decide), ne_of_isDigit c '"' h (by decide),
   ne_of_isDigit c '[' h (by decide), ne_of_isDigit c '\x7b' h (by decide),
   ne_of_isDigit c '-' h (by decide), ne_of_isDigit c ']' h (by decide)⟩

/-- Every encoded value is non-empty and starts with a character other than
the array terminator. -/
theorem encodeV_head (v : JVal) :
    ∃ c cs, encodeV v = c :: cs ∧ ¬ c = ']' := by
  cases v with
  | null => exact ⟨'n', ['u', 'l', 'l'], rfl, by decide⟩
  | bool b =>
    cases b with
    | true => exact ⟨'t', ['r', 'u', 'e'], rfl, by decide⟩
    | false => exact ⟨'f', ['a', 'l', 's', 'e'], rfl, by decide⟩
  | num n =>
    cases n with
    | ofNat m =>
      rcases hh : natDigits m with _ | ⟨c, cs⟩
      · exact absurd hh (natDigits_ne_nil m)
      · have hdig : c.isDigit = true :=
          natDigits_digits m c (hh ▸ List.mem_cons_self c cs)
        exact ⟨c, cs, hh ▸ rfl, (isDigit_head_facts c hdig).2.2.2.2.2.2.2⟩
    | negSucc m =>
      exact ⟨'-', natDigits (m + 1), rfl, by decide⟩
  | str s => exact ⟨'"', escBody s.toList ++ ['"'], rfl, by decide⟩
  | arr l => exact ⟨'[', encodeElems l ++ [']'], rfl, by decide⟩
  | obj o => exact ⟨'\x7b', encodeFields o ++ ['\x7d'], rfl, by decide⟩

/-- Sizes are positive. -/
theorem sizeV_pos (v : JVal) : 1 ≤ sizeV v := by
  cases v <;> simp [sizeV]

/-- Sizes are positive. -/
theorem sizeA_pos (l : JArr) : 1 ≤ sizeA l := by
  cases l <;> simp [sizeA]

/-- Sizes are positive. -/
theorem sizeO_pos (o : JObj) : 1 ≤ sizeO o := by
  cases o <;> simp [sizeO]

mutual
/-- The parsing fuel measure is bounded by the encoding's length. -/
theorem encLenV : ∀ v : JVal, sizeV v ≤ (encodeV v).length
  | .null => by simp [encodeV, sizeV, litNull]
  | .bool true => by simp [encodeV, sizeV, litTrue]
  | .bool false => by simp [encodeV, sizeV, litFalse]
  | .num n => by
    cases n with
    | ofNat m =>
      have hlen := List.length_pos.mpr (natDigits_ne_nil m)
      simpa [encodeV, sizeV, encodeInt] using hlen
    | negSucc m => simp [encodeV, sizeV, encodeInt]
  | .str s => by simp [encodeV, sizeV, encodeStr]
  | .arr l => by
    have h := encLenA l
    simp only [encodeV, sizeV, List.length_cons, List.length_append,
      List.length_singleton]
    omega
  | .obj o => by
    have h := encLenO o
    simp only [encodeV, sizeV, List.length_cons, List.length_append,
      List.length_singleton]
    omega
/-- The parsing fuel measure is bounded by the encoding's length. -/
theorem encLenA : ∀ l : JArr, sizeA l ≤ (encodeElems l).length + 1
  | .nil => by simp [sizeA, encodeElems]
  | .cons v .nil => by
    have h := encLenV v
    have hp := sizeV_pos v
    have h0 : sizeA JArr.nil = 1 := rfl
    rw [sizeA, encodeElems]
    omega
  | .cons v (.cons w ws) => by
    have h1 := encLenV v
    have h2 := encLenA (.cons w ws)
    rw [sizeA, show encodeElems (.cons v (.cons w ws))
      = encodeV v ++ ',' :: encodeElems (.cons w ws) from rfl]
    simp only [List.length_append, List.length_cons]
    omega
/-- The parsing fuel measure is bounded by the encoding's length. -/
theorem encLenO : ∀ o : JObj, sizeO o ≤ (encodeFields o).length + 1
  | .nil => by simp [sizeO, encodeFields]
  | .cons k v .nil => by
    have h := encLenV v
    have hp := sizeV_pos v
    have h0 : sizeO JObj.nil = 1 := rfl
    rw [sizeO, encodeFields]
    simp only [List.length_append, List.length_cons]
    omega
  | .cons k v (.cons k2 v2 fs) => by
    have h1 := encLenV v
    have h2 := encLenO (.cons k2 v2 fs)
    rw [sizeO, show encodeFields (.cons k v (.cons k2 v2 fs))
      = encodeStr k ++ ':' :: encodeV v
        ++ ',' :: encodeFields (.cons k2 v2 fs) from rfl]
    simp only [List.length_append, List.length_cons]
    omega
end

/-- **Roundtrip**: with enough fuel, the readers invert the encoders, for
values followed by any digit-free remainder, for element lists followed by
the closing bracket, and for field lists followed by the closing brace. -/
theorem parse_encode (fuel : Nat) :
    (∀ (v : JVal) (rest : List Char), sizeV v ≤ fuel → restOK rest = true →
      parseVal fuel (encodeV v ++ rest) = some (v, rest))
    ∧ (∀ (l : JArr) (rest : List Char), sizeA l ≤ fuel →
      parseElems fuel (encodeElems l ++ ']' :: rest) = some (l, rest))
    ∧ (∀ (o : JObj) (rest : List Char), sizeO o ≤ fuel →
      parseFields fuel (encodeFields o ++ '\x7d' :: rest) = some (o, rest)) := by
  induction fuel with
  | zero =>
    refine ⟨?_, ?_, ?_⟩
    · intro v rest h _
      have := sizeV_pos v
      omega
    · intro l rest h
      have := sizeA_pos l
      omega
    · intro o rest h
      have := sizeO_pos o
      omega
  | succ f ih =>
    obtain ⟨ihV, ihA, ihO⟩ := ih
    refine ⟨?_, ?_, ?_⟩
    · intro v rest hsz hrest
      cases v with
      | null =>
        rw [show encodeV .null ++ rest = 'n' :: (['u', 'l', 'l'] ++ rest)
          from rfl]
        rw [parseVal, if_pos rfl, dropLit_append]
      | bool b =>
        cases b with
        | true =>
          rw [show encodeV (.bool true) ++ rest
            = 't' :: (['r', 'u', 'e'] ++ rest) from rfl]
          rw [parseVal, if_neg (by decide), if_pos rfl, dropLit_append]
        | false =>
          rw [show encodeV (.bool false) ++ rest
            = 'f' :: (['a', 'l', 's', 'e'] ++ rest) from rfl]
          rw [parseVal, if_neg (by decide), if_neg (by decide), if_pos rfl,
            dropLit_append]
      | num n =>
        cases n with
        | ofNat m =>
          obtain ⟨c, cs, hcons, hdig⟩ :
              ∃ c cs, natDigits m = c :: cs ∧ c.isDigit = true := by
            rcases hh : natDigits m with _ | ⟨c, cs⟩
            · exact absurd hh (natDigits_ne_nil m)
            · exact ⟨c, cs, rfl,
                natDigits_digits m c (hh ▸ List.mem_cons_self c cs)⟩
          obtain ⟨hn, ht, hf, hq, hb, hbr, hm, _⟩ := isDigit_head_facts c hdig
          rw [show encodeV (.num (Int.ofNat m)) = natDigits m from rfl, hcons]
          rw [List.cons_append, parseVal, if_neg hn, if_neg ht, if_neg hf,
            if_neg hq, if_neg hb, if_neg hbr, if_neg hm, if_pos hdig]
          have hpd : parseDigits ((c :: cs) ++ rest) 0 = (m, rest) := by
            rw [← hcons]
            exact parseDigits_natDigits m rest hrest
          rw [List.cons_append] at hpd
          rw [hpd]
          rfl
        | negSucc m =>
          obtain ⟨c, cs, hcons, hdig⟩ :
              ∃ c cs, natDigits (m + 1) = c :: cs ∧ c.isDigit = true := by
            rcases hh : natDigits (m + 1) with _ | ⟨c, cs⟩
            · exact absurd hh (natDigits_ne_nil (m + 1))
            · exact ⟨c, cs, rfl,
                natDigits_digits (m + 1) c (hh ▸ List.mem_cons_self c cs)⟩
          rw [show encodeV (.num (Int.negSucc m)) ++ rest
            = '-' :: (natDigits (m + 1) ++ rest) from rfl]
          rw [parseVal, if_neg (by decide), if_neg (by decide),
            if_neg (by decide), if_neg (by decide), if_neg (by decide),
            if_neg (by decide), if_pos rfl]
          rw [hcons, List.cons_append, parseNegNum, if_pos hdig]
          have hpd : parseDigits ((c :: cs) ++ rest) 0 = (m + 1, rest) := by
            rw [← hcons]
            exact parseDigits_natDigits (m + 1) rest hrest
          rw [List.cons_append] at hpd
          rw [hpd]
          have hneg : Int.negSucc m = -((m + 1 : Nat) : Int) := by
            simp [Int.negSucc_eq]
          rw [hneg]
      | str s =>
        rw [show encodeV (.str s) ++ rest
          = '"' :: ((escBody s.toList ++ ['"']) ++ rest) from rfl]
        rw [parseVal, if_neg (by decide), if_neg (by decide),
          if_neg (by decide), if_pos rfl]
        rw [List.append_assoc, List.singleton_append]
        rw [parseStrBody_escBody s.toList rest]
        simp [stringMk_toList]
      | arr l =>
        rw [show encodeV (.arr l) ++ rest
          = '[' :: ((encodeElems l ++ [']']) ++ rest) from rfl]
        rw [parseVal, if_neg (by decide), if_neg (by decide),
          if_neg (by decide), if_neg (by decide), if_pos rfl]
        rw [List.append_assoc, List.singleton_append]
        rw [ihA l rest (by rw [sizeV] at hsz; omega)]
      | obj o =>
        rw [show encodeV (.obj o) ++ rest
          = '\x7b' :: ((encodeFields o ++ ['\x7d']) ++ rest) from rfl]
        rw [parseVal, if_neg (by decide), if_neg (by decide),
          if_neg (by decide), if_neg (by decide), if_neg (by decide),
          if_pos rfl]
        rw [List.append_assoc, List.singleton_append]
        rw [ihO o rest (by rw [sizeV] at hsz; omega)]
    · intro l rest hsz
      cases l with
      | nil =>
        rw [show encodeElems .nil ++ ']' :: rest = ']' :: rest from rfl]
        rw [parseElems, if_pos rfl]
      | cons v vs =>
        obtain ⟨c, cs0, hcons, hne⟩ := encodeV_head v
        have hszv : sizeV v ≤ f := by
          rw [sizeA] at hsz
          omega
        cases vs with
        | nil =>
          have hV := ihV v (']' :: rest) hszv (by rfl)
          rw [show encodeElems (.cons v .nil) = encodeV v from rfl, hcons]
          rw [hcons] at hV
          simp only [List.cons_append, List.append_assoc] at hV ⊢
          rw [parseElems, if_neg hne]
          simp [hV]
        | cons w ws =>
          have hszt : sizeA (JArr.cons w ws) ≤ f := by
            rw [sizeA] at hsz
            omega
          have hV := ihV v (',' :: (encodeElems (.cons w ws) ++ ']' :: rest))
            hszv (by rfl)
          have hA := ihA (.cons w ws) rest hszt
          rw [show encodeElems (.cons v (.cons w ws))
            = encodeV v ++ ',' :: encodeElems (.cons w ws) from rfl, hcons]
          rw [hcons] at hV
          simp only [List.cons_append, List.append_assoc] at hV ⊢
          rw [parseElems, if_neg hne]
          simp [hV, hA]
    · intro o rest hsz
      cases o with
      | nil =>
        rw [show encodeFields .nil ++ '\x7d' :: rest = '\x7d' :: rest
          from rfl]
        rw [parseFields, if_pos rfl]
      | cons k v fs =>
        have hszv : sizeV v ≤ f := by
          rw [sizeO] at hsz
          omega
        cases fs with
        | nil =>
          have hS := parseStrBody_escBody k.data
            (':' :: (encodeV v ++ '\x7d' :: rest))
          have hV := ihV v ('\x7d' :: rest) hszv (by rfl)
          rw [show encodeFields (.cons k v .nil)
            = encodeStr k ++ ':' :: encodeV v from rfl,
            show encodeStr k = '"' :: escBody k.data ++ ['"'] from rfl]
          simp only [List.cons_append, List.append_assoc,
            List.singleton_append, List.nil_append] at hS hV ⊢
          rw [parseFields, if_neg (by decide), if_pos rfl]
          rw [hS]
          simp [hV]
        | cons k2 v2 fs2 =>
          have hszt : sizeO (JObj.cons k2 v2 fs2) ≤ f := by
            rw [sizeO] at hsz
            omega
          have hS := parseStrBody_escBody k.data
            (':' :: (encodeV v ++ ',' :: (encodeFields (.cons k2 v2 fs2)
              ++ '\x7d' :: rest)))
          have hV := ihV v
            (',' :: (encodeFields (.cons k2 v2 fs2) ++ '\x7d' :: rest))
            hszv (by rfl)
          have hO := ihO (.cons k2 v2 fs2) rest hszt
          rw [show encodeFields (.cons k v (.cons k2 v2 fs2))
            = encodeStr k ++ ':' :: encodeV v
              ++ ',' :: encodeFields (.cons k2 v2 fs2) from rfl,
            show encodeStr k = '"' :: escBody k.data ++ ['"'] from rfl]
          simp only [List.cons_append, List.append_assoc,
            List.singleton_append, List.nil_append] at hS hV hO ⊢
          rw [parseFields, if_neg (by decide), if_pos rfl]
          rw [hS]
          simp [hV, hO]

/-! ## Helper lemmas for the stable descending sort -/

/-- Inserting an element with `orderedInsert (fun a b => b.2 ≤ a.2)` preserves,
for every score value `q`, the subsequence of entries with score `q` of
`x :: l`.  This is the standard characterization of a stable insertion: `x`
passes only entries with strictly greater score. -/
theorem filter_orderedInsert_score (x : RepositoryConfig × ℚ)
    (l : List (RepositoryConfig × ℚ)) (q : ℚ) :
    (List.orderedInsert (fun a b => b.2 ≤ a.2) x l).filter (fun p => p.2 = q)
      = (x :: l).filter (fun p => p.2 = q) := by
  induction l with
  | nil => rfl
  | cons y ys ih =>
    by_cases hxy : y.2 ≤ x.2
    · simp [List.orderedInsert, hxy]
    · have hlt : x.2 < y.2 := lt_of_not_le hxy
      simp only [List.orderedInsert, if_neg hxy]
      by_cases hx : x.2 = q
      · have hy : ¬ y.2 = q := fun h => absurd (hx.trans h.symm) (ne_of_lt hlt)
        simp [List.filter_cons, hx, hy, ih]
      · simp [List.filter_cons, hx, ih]

/-- The stable descending sort preserves, for every score value `q`, the
subsequence of entries with score `q`. -/
theorem filter_sortByScoreDesc (l : List (RepositoryConfig × ℚ)) (q : ℚ) :
    (sortByScoreDesc l).filter (fun p => p.2 = q)
      = l.filter (fun p => p.2 = q) := by
  induction l with
  | nil => rfl
  | cons x xs ih =>
    simp only [sortByScoreDesc, List.insertionSort] at *
    rw [filter_orderedInsert_score]
    by_cases hx : x.2 = q <;> simp [List.filter_cons, hx, ih]

/-- The descending-sort output is pairwise sorted by `≥` on scores. -/
theorem sortByScoreDesc_sorted (l : List (RepositoryConfig × ℚ)) :
    (sortByScoreDesc l).Pairwise (fun a b => b.2 ≤ a.2) := by
  haveI : IsTotal (RepositoryConfig × ℚ) (fun a b => b.2 ≤ a.2) :=
    ⟨fun a b => le_total b.2 a.2⟩
  haveI : IsTrans (RepositoryConfig × ℚ) (fun a b => b.2 ≤ a.2) :=
    ⟨fun _ _ _ hab hbc => le_trans hbc hab⟩
  exact List.sorted_insertionSort _ l

/-- The descending sort is a permutation of its input. -/
theorem sortByScoreDesc_perm (l : List (RepositoryConfig × ℚ)) :
    (sortByScoreDesc l).Perm l :=
  List.perm_insertionSort _ l

/-- Every entry of the filtered list clears the `0.1` threshold, and carries
the score the scorer assigns to its repository. -/
theorem mem_relevantRepos {K : List String} {rs : List RepositoryConfig}
    {p : RepositoryConfig × ℚ} (hp : p ∈ relevantRepos K rs) :
    p.1 ∈ rs ∧ p.2 = calcRelevanceScore K p.1 ∧ 1/10 < p.2 := by
  simp only [relevantRepos, List.mem_filterMap] at hp
  obtain ⟨rc, hrc, heq⟩ := hp
  by_cases h : 1/10 < calcRelevanceScore K rc
  · rw [if_pos h] at heq
    cases heq
    exact ⟨hrc, rfl, h⟩
  · rw [if_neg h] at heq
    cases heq

/-! ## Claim C1 — the §4.1 score formula -/

/-- **C1, counterexample.**  The claimed formula tokenizes the repository
name "the same way as alert text" (spec §4.1: splitting on non-alphanumeric
separators including `_`); the code's `_extract_words_from_text` instead
treats `_` as a word character (and also drops stop words).  On the
repository name `"foo_bar"` with alert keywords `{foo, bar}` the code scores
`0.3` (no name overlap: the single name token is `foo_bar`) while the claimed
formula scores `0.3 + 2/2 * 0.3 = 0.6`. -/
theorem c1_counterexample :
    calcRelevanceScore ["foo", "bar"]
        { owner := "o", name := "foo_bar", priority := "low" }
      ≠ specScoreClaimed (["foo", "bar"] : List String).toFinset
        { owner := "o", name := "foo_bar", priority := "low" } := by
  have h1 : calcRelevanceScore ["foo", "bar"]
      { owner := "o", name := "foo_bar", priority := "low" } = 3/10 := by
    have h : extractWordsFromText "foo_bar" = ["foo_bar"] := by decide
    simp +decide [calcRelevanceScore, h, priorityBoost]
    norm_num
  have h2 : specScoreClaimed (["foo", "bar"] : List String).toFinset
      { owner := "o", name := "foo_bar", priority := "low" } = 3/5 := by
    have h : specTokenizeText "foo_bar" = ["foo", "bar"] := by decide
    simp +decide [specScoreClaimed, h]
    norm_num
  rw [h1, h2]
  norm_num

/-- **C1 (amended).**  For every duplicate-free alert keyword list `K` and
repository profile `r` whose configured keywords are lower-case (the spec's
§3 invariant on `RepositoryProfile.keywords`), the code's score equals the
§4.1 formula — 0 when `K` is empty, otherwise the keyword-overlap term
(`|K ∩ r.keywords|/|K| * 0.8`, or a flat `0.3` when `r.keywords` is empty),
plus the priority term, plus the name-overlap term, capped at 1 — with the
name tokens produced by the scorer's own text tokenizer
(`_extract_words_from_text`: maximal alphanumeric-or-underscore runs of the
lower-cased name, stop words and tokens of length ≤ 2 dropped), not by the
spec's alert-text tokenization. -/
theorem c1_score_formula_amended (K : List String) (r : RepositoryConfig)
    (hnd : K.Nodup) (hlow : ∀ k ∈ r.alert_keywords, lowerString k = k) :
    calcRelevanceScore K r = specScoreAmended K.toFinset r := by
  by_cases hK : K = []
  · subst hK
    simp [calcRelevanceScore, specScoreAmended]
  · have hne : K.toFinset ≠ ∅ := by
      simp only [ne_eq, List.toFinset_eq_empty_iff]
      exact hK
    have hmap : r.alert_keywords.map lowerString = r.alert_keywords := by
      conv_rhs => rw [← List.map_id r.alert_keywords]
      exact List.map_congr_left hlow
    have hcard : (K.toFinset.card : ℚ) = (K.length : ℚ) := by
      exact_mod_cast congrArg Nat.cast (List.toFinset_card_of_nodup hnd)
    simp only [calcRelevanceScore, specScoreAmended, if_neg hK, if_neg hne,
      hmap, priorityBoost, hcard]
    split_ifs <;> simp_all

/-- Concrete repository profile used by the C1 witness. -/
def c1WitnessRepo : RepositoryConfig :=
  { owner := "acme", name := "lambda-service",
    alert_keywords := ["lambda", "timeout"], priority := "high" }

/-- **C1 witness**: the amended formula at a concrete input. -/
theorem c1_witness :
    (["lambda", "errorrate"] : List String).Nodup
    ∧ (∀ k ∈ c1WitnessRepo.alert_keywords, lowerString k = k)
    ∧ calcRelevanceScore ["lambda", "errorrate"] c1WitnessRepo
      = specScoreAmended (["lambda", "errorrate"] : List String).toFinset
          c1WitnessRepo :=
  ⟨by decide, by decide,
    c1_score_formula_amended _ _ (by decide) (by decide)⟩

/-! ## Claim C2 — properties of `identify_relevant_repositories` -/

/-- **C2.**  For every alert keyword list and repository list, the ranking
returns at most 3 entries, every returned entry's score strictly exceeds
`0.1`, the output is sorted by descending score, the sort is stable (for
every score value the subsequence of entries carrying it is unchanged, so
ties keep original input order), repeated calls agree, and when no
repository clears the threshold the result is the empty list rather than an
error. -/
theorem c2_rank_properties (K : List String) (rs : List RepositoryConfig) :
    (identifyRelevantRepositories K rs).length ≤ 3
    ∧ (∀ p ∈ identifyRelevantRepositories K rs, 1/10 < p.2)
    ∧ (identifyRelevantRepositories K rs).Pairwise (fun a b => b.2 ≤ a.2)
    ∧ (∀ q : ℚ, (sortByScoreDesc (relevantRepos K rs)).filter
          (fun p => p.2 = q) = (relevantRepos K rs).filter (fun p => p.2 = q))
    ∧ identifyRelevantRepositories K rs = identifyRelevantRepositories K rs
    ∧ ((∀ r ∈ rs, calcRelevanceScore K r ≤ 1/10) →
        identifyRelevantRepositories K rs = []) := by
  refine ⟨?_, ?_, ?_, ?_, rfl, ?_⟩
  · simp only [identifyRelevantRepositories, List.length_take]
    exact min_le_left 3 (sortByScoreDesc (relevantRepos K rs)).length
  · intro p hp
    have hmem : p ∈ relevantRepos K rs :=
      ((sortByScoreDesc_perm (relevantRepos K rs)).mem_iff).mp
        ((List.take_sublist 3 _).mem hp)
    exact (mem_relevantRepos hmem).2.2
  · exact (sortByScoreDesc_sorted (relevantRepos K rs)).sublist
      (List.take_sublist 3 _)
  · exact filter_sortByScoreDesc (relevantRepos K rs)
  · intro hall
    have hnil : relevantRepos K rs = [] := by
      simp only [relevantRepos, List.filterMap_eq_nil_iff]
      intro rc hrc
      rw [if_neg (not_lt.mpr (hall rc hrc))]
    simp [identifyRelevantRepositories, sortByScoreDesc, hnil]

/-- **C2 witness**: the rank properties at a concrete input. -/
theorem c2_witness :
    (identifyRelevantRepositories ["error"]
        [{ owner := "o", name := "svc" }]).length ≤ 3
    ∧ (∀ p ∈ identifyRelevantRepositories ["error"]
        [{ owner := "o", name := "svc" }], 1/10 < p.2)
    ∧ (identifyRelevantRepositories ["error"]
        [{ owner := "o", name := "svc" }]).Pairwise (fun a b => b.2 ≤ a.2)
    ∧ (∀ q : ℚ, (sortByScoreDesc (relevantRepos ["error"]
          [{ owner := "o", name := "svc" }])).filter (fun p => p.2 = q)
        = (relevantRepos ["error"]
          [{ owner := "o", name := "svc" }]).filter (fun p => p.2 = q))
    ∧ identifyRelevantRepositories ["error"] [{ owner := "o", name := "svc" }]
      = identifyRelevantRepositories ["error"] [{ owner := "o", name := "svc" }]
    ∧ ((∀ r ∈ [{ owner := "o", name := "svc" : RepositoryConfig }],
          calcRelevanceScore ["error"] r ≤ 1/10) →
        identifyRelevantRepositories ["error"]
          [{ owner := "o", name := "svc" }] = []) :=
  c2_rank_properties ["error"] [{ owner := "o", name := "svc" }]

/-! ## Claim C10 — repositories with no configured keywords -/

/-- **C10.**  For every non-empty alert keyword list, a repository whose
configured keyword list is empty scores at least `0.3`, hence strictly above
the `0.1` threshold; if it is absent from the ranking's output, the output
was truncated at 3 entries. -/
theorem c10_empty_keyword_repo (K : List String) (rs : List RepositoryConfig)
    (r : RepositoryConfig) (hK : K ≠ []) (hr : r ∈ rs)
    (hkw : r.alert_keywords = []) :
    3/10 ≤ calcRelevanceScore K r
    ∧ 1/10 < calcRelevanceScore K r
    ∧ ((∀ p ∈ identifyRelevantRepositories K rs, p.1 ≠ r) →
        (identifyRelevantRepositories K rs).length = 3) := by
  have hscore : 3/10 ≤ calcRelevanceScore K r := by
    rw [calcRelevanceScore, if_neg hK]
    simp only [hkw, ne_eq, not_true_eq_false, if_false]
    have hpr : (0 : ℚ) ≤ priorityBoost r.priority := by
      rw [priorityBoost]
      split_ifs <;> norm_num
    have hname : (0 : ℚ) ≤
        ((K.toFinset ∩ (extractWordsFromText r.name).toFinset).card : ℚ) /
          (K.length : ℚ) * (3/10) := by
      positivity
    refine le_min ?_ (by norm_num)
    split_ifs <;> nlinarith
  have hthr : 1/10 < calcRelevanceScore K r := lt_of_lt_of_le (by norm_num) hscore
  refine ⟨hscore, hthr, ?_⟩
  intro habs
  have hmem : (r, calcRelevanceScore K r) ∈ relevantRepos K rs := by
    simp only [relevantRepos, List.mem_filterMap]
    exact ⟨r, hr, by rw [if_pos hthr]⟩
  have hmem2 : (r, calcRelevanceScore K r) ∈ sortByScoreDesc (relevantRepos K rs) :=
    (sortByScoreDesc_perm (relevantRepos K rs)).mem_iff.mpr hmem
  have hnot : (r, calcRelevanceScore K r) ∉ identifyRelevantRepositories K rs :=
    fun h => habs _ h rfl
  have hlong : 3 < (sortByScoreDesc (relevantRepos K rs)).length := by
    by_contra hle
    push_neg at hle
    rw [identifyRelevantRepositories, List.take_of_length_le hle] at hnot
    exact hnot hmem2
  simp [identifyRelevantRepositories, List.length_take]
  omega

/-- **C10 witness**: a keyword-less repository at a concrete input. -/
theorem c10_witness :
    (["err"] : List String) ≠ []
    ∧ ({ owner := "o", name := "svc" : RepositoryConfig }
        ∈ [{ owner := "o", name := "svc" : RepositoryConfig }])
    ∧ ({ owner := "o", name := "svc" : RepositoryConfig }).alert_keywords = []
    ∧ (3/10 ≤ calcRelevanceScore ["err"] { owner := "o", name := "svc" }
      ∧ 1/10 < calcRelevanceScore ["err"] { owner := "o", name := "svc" }
      ∧ ((∀ p ∈ identifyRelevantRepositories ["err"]
            [{ owner := "o", name := "svc" }],
            p.1 ≠ { owner := "o", name := "svc" : RepositoryConfig }) →
          (identifyRelevantRepositories ["err"]
            [{ owner := "o", name := "svc" }]).length = 3)) :=
  ⟨by decide, by decide, by decide,
    c10_empty_keyword_repo ["err"] [{ owner := "o", name := "svc" }]
      { owner := "o", name := "svc" } (by decide) (by decide) (by decide)⟩

/-! ## Claim C7 — `validate_alert` -/

/-- **C7.**  For every ignore-pattern list and alert record, `validate_alert`
returns true iff the alert's state is `"ALARM"` and no ignore pattern occurs
as a substring of the lower-cased alarm name; in particular every alert whose
state is not `"ALARM"` is rejected, regardless of its other fields. -/
theorem c7_validate_alert (ignorePatterns : List String)
    (alert : CloudWatchAlert) :
    (validateAlert ignorePatterns alert = true ↔
      (alert.state = "ALARM" ∧ ∀ pat ∈ ignorePatterns,
        ¬ pat.toList <:+: (lowerString alert.alarm_name).toList))
    ∧ (alert.state ≠ "ALARM" → validateAlert ignorePatterns alert = false) := by
  constructor
  · rw [validateAlert]
    by_cases hs : alert.state = "ALARM"
    · simp [hs]
    · simp [hs]
  · intro hs
    rw [validateAlert, if_pos hs]

/-- **C7 witness**: a non-`ALARM` alert is rejected; an `ALARM` alert with no
matching ignore pattern is accepted. -/
theorem c7_witness :
    (validateAlert ["test"]
        { alarm_name := "HighErrorRate", alarm_description := "",
          metric_name := "Errors", «namespace» := "AWS/Lambda",
          timestamp := "", state := "OK", reason := "", region := "",
          account_id := "" } = true ↔
      (("OK" : String) = "ALARM" ∧ ∀ pat ∈ (["test"] : List String),
        ¬ pat.toList <:+: (lowerString "HighErrorRate").toList))
    ∧ (("OK" : String) ≠ "ALARM" → validateAlert ["test"]
        { alarm_name := "HighErrorRate", alarm_description := "",
          metric_name := "Errors", «namespace» := "AWS/Lambda",
          timestamp := "", state := "OK", reason := "", region := "",
          account_id := "" } = false) :=
  c7_validate_alert ["test"]
    { alarm_name := "HighErrorRate", alarm_description := "",
      metric_name := "Errors", «namespace» := "AWS/Lambda",
      timestamp := "", state := "OK", reason := "", region := "",
      account_id := "" }

/-! ## Claim C8 — SNS envelope unwrap -/

/-- Parsing inverts encoding on every JSON value. -/
theorem jsonLoads_encode (v : JVal) : jsonLoads (encodeJson v) = some v := by
  have h := (parse_encode ((encodeV v).length + 1)).1 v []
    (Nat.le_trans (encLenV v) (Nat.le_succ _)) rfl
  rw [List.append_nil] at h
  rw [jsonLoads]
  rw [show (encodeJson v).length = (encodeV v).length from rfl]
  rw [show (encodeJson v).toList = encodeV v from rfl]
  rw [h]

/-- A key absent from the mapping extracts as the empty string. -/
theorem jGetStr_none (d : JObj) (key : String) (h : jLookup d key = none) :
    jGetStr d key = "" := by
  rw [jGetStr, h]

/-- A payload that itself contains a `"Message"` field. -/
def c8P0 : JObj :=
  .cons "AlarmName" (.str "X") (.cons "Message" (.str "\x7b\x7d") .nil)

/-- **C8 counterexample.**  The claimed identity fails for a payload that
itself contains a `"Message"` key: parsed directly, its `"Message"` value is
taken for an SNS envelope and the `"AlarmName"` field is lost, while the
wrapped form recovers the full payload. -/
theorem c8_counterexample :
    fromSnsMessage c8P0 ≠ fromSnsMessage (wrapEnvelope c8P0) := by
  decide

/-- **C8 (amended).**  For every alarm payload `P` given as a mapping that
does not itself contain a `"Message"` key, parsing `P` directly and parsing
the wrapped envelope with `"Message"` holding the JSON encoding of `P`
produce the identical alert, namely the field-wise extraction of `P`, in
which every field missing from `P` defaults to the empty string. -/
theorem c8_wrap_unwrap_amended (P : JObj)
    (hmsg : jLookup P "Message" = none) :
    fromSnsMessage (wrapEnvelope P) = fromSnsMessage P
    ∧ fromSnsMessage P = some (extractAlert P)
    ∧ (jLookup P "AlarmName" = none → (extractAlert P).alarm_name = "")
    ∧ (jLookup P "AlarmDescription" = none →
        (extractAlert P).alarm_description = "")
    ∧ (jLookup P "MetricName" = none → (extractAlert P).metric_name = "")
    ∧ (jLookup P "Namespace" = none → (extractAlert P).«namespace» = "")
    ∧ (jLookup P "StateChangeTime" = none → (extractAlert P).timestamp = "")
    ∧ (jLookup P "NewStateValue" = none → (extractAlert P).state = "")
    ∧ (jLookup P "NewStateReason" = none → (extractAlert P).reason = "")
    ∧ (jLookup P "Region" = none → (extractAlert P).region = "")
    ∧ (jLookup P "AWSAccountId" = none → (extractAlert P).account_id = "") := by
  have hdir : fromSnsMessage P = some (extractAlert P) := by
    rw [fromSnsMessage, hmsg]
  have henv : fromSnsMessage (wrapEnvelope P) = some (extractAlert P) := by
    rw [wrapEnvelope, fromSnsMessage]
    rw [show jLookup (.cons "Message" (.str (encodeJson (.obj P))) .nil)
      "Message" = some (.str (encodeJson (.obj P))) from rfl]
    simp only [jsonLoads_encode]
  refine ⟨henv.trans hdir.symm, hdir, ?_, ?_, ?_, ?_, ?_, ?_, ?_, ?_, ?_⟩ <;>
    exact fun h => jGetStr_none P _ h

/-- A minimal payload without a `"Message"` key. -/
def c8WitnessP : JObj := .cons "NewStateValue" (.str "ALARM") .nil

/-- **C8 witness**: the amended equivalence at a concrete payload. -/
theorem c8_witness :
    jLookup c8WitnessP "Message" = none
    ∧ fromSnsMessage (wrapEnvelope c8WitnessP) = fromSnsMessage c8WitnessP :=
  ⟨by rfl, (c8_wrap_unwrap_amended c8WitnessP (by rfl)).1⟩

end CodeResearcher
